import Mathlib

/-!
# Verification of the argdump value/type codec

A shallow embedding of `src/argdump/_values.py` (the value codec),
`src/argdump/_types.py` (the type registry) and the subparsers-alias
bookkeeping of `src/argdump/_serializer.py`, together with proofs that
settle the frozen claims about them.

Modelling conventions:
* Python runtime values are the inductive `PyVal`.  Object identity —
  which the source consults through `id(value)` and the `_seen` set —
  is modelled by an explicit heap: `PyVal.ref a` denotes the object
  stored at address `a` of a `Heap`.  Values built without `ref` are
  trees, matching Python values in which no container is reachable
  twice.
* Python `str` is Lean `String` (surrogate-free strings), `bytes` is a
  `List Nat` of byte values, machine floats are restricted to the
  integral-valued floats (`PyVal.float i` stands for the float of exact
  integral value `i`), and dictionary keys are restricted to the
  hashable primitives (`PyKey`).
* Fallible Python code (code that can raise) returns `Option`/`Except`;
  `none`/`.error` means an exception escapes.
-/

namespace Argdump

/-- Python dictionary keys used by the codec, restricted to hashable
primitives (`None`, `bool`, `int`, `str`).  Real Python allows further
hashable keys; none are needed by the code under verification. -/
inductive PyKey where
  | noneK : PyKey
  | boolK : Bool → PyKey
  | intK : Int → PyKey
  | strK : String → PyKey
deriving DecidableEq, Repr

/-- Python runtime values, as consumed and produced by
`serialize_value` / `deserialize_value` in `_values.py`. -/
inductive PyVal where
  | none : PyVal
  | bool : Bool → PyVal
  | int : Int → PyVal
  | float : Int → PyVal
  | str : String → PyVal
  | suppress : PyVal
  | list : List PyVal → PyVal
  | tupl : List PyVal → PyVal
  | dict : List (PyKey × PyVal) → PyVal
  | set : List PyVal → PyVal
  | fset : List PyVal → PyVal
  | enum : String → String → PyVal → String → PyVal
  | bytes : List Nat → PyVal
  | rng : Int → Int → Int → PyVal
  | typ : String → String → PyVal
  | obj : String → String → PyVal
  | ref : Nat → PyVal
deriving Repr

/-- `str(k)` for the modelled dictionary keys (`_serialize_dict` coerces
every key with `str`). -/
def PyKey.str : PyKey → String
  | .noneK => "None"
  | .boolK true => "True"
  | .boolK false => "False"
  | .intK i => toString i
  | .strK s => s

/-- `repr(k)` for the modelled dictionary keys. -/
def PyKey.reprStr : PyKey → String
  | .noneK => "None"
  | .boolK true => "True"
  | .boolK false => "False"
  | .intK i => toString i
  | .strK s => "\x27" ++ s ++ "\x27"

mutual

/-- Python `repr` on the modelled values, on the fragment the codec can
meet (string repr is modelled without quote escaping; containers follow
the CPython rendering). -/
def pyRepr : PyVal → String
  | .none => "None"
  | .bool true => "True"
  | .bool false => "False"
  | .int i => toString i
  | .float i => toString i ++ ".0"
  | .str s => "\x27" ++ s ++ "\x27"
  | .suppress => "\x27==SUPPRESS==\x27"
  | .list es => "[" ++ pyReprList es ++ "]"
  | .tupl [e] => "(" ++ pyRepr e ++ ",)"
  | .tupl es => "(" ++ pyReprList es ++ ")"
  | .dict kvs => "\x7b" ++ pyReprKVs kvs ++ "\x7d"
  | .set es => "\x7b" ++ pyReprList es ++ "\x7d"
  | .fset es => "frozenset(\x7b" ++ pyReprList es ++ "\x7d)"
  | .enum cls _ _ nm => "<" ++ cls ++ "." ++ nm ++ ">"
  | .bytes bs => "b\x27" ++ String.intercalate "" (bs.map (fun b => "\\x" ++ toString b)) ++ "\x27"
  | .rng a b c => if c = 1 then "range(" ++ toString a ++ ", " ++ toString b ++ ")"
      else "range(" ++ toString a ++ ", " ++ toString b ++ ", " ++ toString c ++ ")"
  | .typ nm _ => "<class \x27" ++ nm ++ "\x27>"
  | .obj r _ => r
  | .ref a => "<object at " ++ toString a ++ ">"

/-- Comma-separated reprs of a list of values. -/
def pyReprList : List PyVal → String
  | [] => ""
  | [e] => pyRepr e
  | e :: rest => pyRepr e ++ ", " ++ pyReprList rest

/-- Comma-separated reprs of dictionary entries. -/
def pyReprKVs : List (PyKey × PyVal) → String
  | [] => ""
  | [(k, v)] => k.reprStr ++ ": " ++ pyRepr v
  | (k, v) :: rest => k.reprStr ++ ": " ++ pyRepr v ++ ", " ++ pyReprKVs rest

end

/-- Python `str` on the modelled values: the identity on strings, `repr`
otherwise.  This is the sort key `sorted(value, key=str)` uses in
`_serialize_set` / `_serialize_frozenset`. -/
def pyStr : PyVal → String
  | .str s => s
  | .suppress => "==SUPPRESS=="
  | v => pyRepr v

/-- Stable sort of set elements by their string representation, the
model of `sorted(value, key=str)`. -/
def sortByStr (es : List PyVal) : List PyVal :=
  List.insertionSort (fun a b => pyStr a ≤ pyStr b) es

/-- Membership test `s in value` for a modelled dictionary, where `s` is
a Python string key. -/
def hasKey (kvs : List (PyKey × PyVal)) (s : String) : Bool :=
  kvs.any (fun kv => kv.1 = PyKey.strK s)

/-- Lookup `value[s]` for a modelled dictionary (first matching entry;
dictionaries built by the code never hold a key twice). -/
def getKey? (kvs : List (PyKey × PyVal)) (s : String) : Option PyVal :=
  match kvs with
  | [] => Option.none
  | (k, v) :: rest => if k = PyKey.strK s then some v else getKey? rest s

/-- Lookup with a default, used where `hasKey` already guarantees the
key is present. -/
def getKeyD (kvs : List (PyKey × PyVal)) (s : String) : PyVal :=
  (getKey? kvs s).getD PyVal.none

/-- Python dict-comprehension semantics on an association list: a
repeated key keeps its first position and takes its last value. -/
def pyDictOf (l : List (PyKey × PyVal)) : List (PyKey × PyVal) :=
  match l with
  | [] => []
  | (k, v) :: rest =>
    (k, ((rest.filter (fun kv => kv.1 = k)).map Prod.snd).getLastD v) ::
      pyDictOf (rest.filter (fun kv => kv.1 ≠ k))
termination_by l.length
decreasing_by
  simp only [List.length_cons]
  exact Nat.lt_succ_of_le (List.length_filter_le _ _)

/-- The string key `s` as a dictionary key. -/
def sk (s : String) : PyKey := PyKey.strK s

/-! ## UTF-8, the model of `bytes.decode("utf-8")` / `str.encode("utf-8")` -/

/-- UTF-8 encoding of one code point. -/
def utf8EncodeCp (c : Nat) : List Nat :=
  if c < 0x80 then [c]
  else if c < 0x800 then [0xC0 + c / 64, 0x80 + c % 64]
  else if c < 0x10000 then [0xE0 + c / 4096, 0x80 + c / 64 % 64, 0x80 + c % 64]
  else [0xF0 + c / 0x40000, 0x80 + c / 4096 % 64, 0x80 + c / 64 % 64, 0x80 + c % 64]

/-- UTF-8 encoding of a character list. -/
def utf8EncodeChars : List Char → List Nat
  | [] => []
  | c :: cs => utf8EncodeCp c.toNat ++ utf8EncodeChars cs

/-- The model of `s.encode("utf-8")`. -/
def utf8EncodeStr (s : String) : List Nat :=
  utf8EncodeChars s.data

/-- Whether a byte is a UTF-8 continuation byte. -/
def isCont (b : Nat) : Bool := 0x80 ≤ b && b < 0xC0

/-- Decode one UTF-8-encoded code point from the front of a byte list,
returning the code point and the remaining bytes.  Strict (CPython's
`bytes.decode("utf-8")`): rejects truncated sequences, stray
continuations, overlong forms, surrogates and code points above
U+10FFFF. -/
def utf8DecodeOne : List Nat → Option (Nat × List Nat)
  | [] => Option.none
  | b :: bs =>
    if b < 0x80 then some (b, bs)
    else if b < 0xC2 then Option.none
    else if b < 0xE0 then
      match bs with
      | c1 :: bs1 => if isCont c1 then some ((b - 0xC0) * 64 + (c1 - 0x80), bs1) else Option.none
      | [] => Option.none
    else if b < 0xF0 then
      match bs with
      | c1 :: c2 :: bs2 =>
        if isCont c1 && isCont c2 then
          let cp := (b - 0xE0) * 4096 + (c1 - 0x80) * 64 + (c2 - 0x80)
          if cp < 0x800 || (0xD800 ≤ cp && cp < 0xE000) then Option.none
          else some (cp, bs2)
        else Option.none
      | _ => Option.none
    else if b < 0xF5 then
      match bs with
      | c1 :: c2 :: c3 :: bs3 =>
        if isCont c1 && isCont c2 && isCont c3 then
          let cp := (b - 0xF0) * 0x40000 + (c1 - 0x80) * 4096 + (c2 - 0x80) * 64 + (c3 - 0x80)
          if cp < 0x10000 || 0x10FFFF < cp then Option.none
          else some (cp, bs3)
        else Option.none
      | _ => Option.none
    else Option.none

set_option maxRecDepth 4096 in
/-- A successful single-character decode consumes at least one byte. -/
theorem utf8DecodeOne_length {bs : List Nat} {cp : Nat} {rest : List Nat}
    (h : utf8DecodeOne bs = some (cp, rest)) : rest.length < bs.length := by
  match bs with
  | [] => simp [utf8DecodeOne] at h
  | b :: bs =>
    simp only [utf8DecodeOne] at h
    split at h
    · cases h; simp only [List.length_cons]; omega
    · split at h
      · cases h
      · split at h
        · split at h
          · split at h
            · cases h; simp only [List.length_cons]; omega
            · cases h
          · cases h
        · split at h
          · split at h
            · split at h
              · split at h
                · cases h
                · cases h; simp only [List.length_cons]; omega
              · cases h
            · cases h
          · split at h
            · split at h
              · split at h
                · split at h
                  · cases h
                  · cases h; simp only [List.length_cons]; omega
                · cases h
              · cases h
            · cases h

/-- Full strict UTF-8 decoding into a character list. -/
def utf8DecodeAux (bs : List Nat) : Option (List Char) :=
  match h : utf8DecodeOne bs with
  | Option.none => if bs = [] then some [] else Option.none
  | some (cp, rest) => (utf8DecodeAux rest).map (fun cs => Char.ofNat cp :: cs)
termination_by bs.length
decreasing_by
  exact utf8DecodeOne_length h

/-- The model of `value.decode("utf-8")` in `_serialize_bytes`: `none`
means `UnicodeDecodeError`. -/
def utf8Decode? (bs : List Nat) : Option String :=
  (utf8DecodeAux bs).map String.mk

/-! ## Base64, the model of `base64.b64encode` / `base64.b64decode` -/

/-- The base64 alphabet. -/
def b64Alphabet : List Char :=
  "ABCDEFGHIJKLMNOPQRSTUVWXYZabcdefghijklmnopqrstuvwxyz0123456789+/".data

/-- Character of a 6-bit group. -/
def b64Chr (i : Nat) : Char := b64Alphabet.getD i "A".head

/-- The base64 padding character. -/
def padChar : Char := "=".head

/-- Index of a base64 character, `none` for a non-alphabet character. -/
def b64Idx? (c : Char) : Option Nat := b64Alphabet.indexOf? c

/-- Base64 encoding of a byte list, as the character list of the
resulting ASCII string (the model of
`base64.b64encode(value).decode("ascii")`). -/
def b64EncodeChars : List Nat → List Char
  | [] => []
  | [a] => [b64Chr (a / 4), b64Chr (a % 4 * 16), padChar, padChar]
  | [a, b] => [b64Chr (a / 4), b64Chr (a % 4 * 16 + b / 16), b64Chr (b % 16 * 4), padChar]
  | a :: b :: c :: rest =>
    b64Chr (a / 4) :: b64Chr (a % 4 * 16 + b / 16) :: b64Chr (b % 16 * 4 + c / 64) ::
      b64Chr (c % 64) :: b64EncodeChars rest

/-- The model of `base64.b64encode(value).decode("ascii")`. -/
def b64Encode (bs : List Nat) : String := String.mk (b64EncodeChars bs)

/-- Base64 decoding of a filtered character list in groups of four;
`none` models `binascii.Error` (incorrect padding / length). -/
def b64DecodeChars : List Char → Option (List Nat)
  | [] => some []
  | c1 :: c2 :: c3 :: c4 :: rest =>
    (b64Idx? c1).bind (fun i1 =>
    (b64Idx? c2).bind (fun i2 =>
    if c3 = padChar then
      if c4 = padChar ∧ rest = [] then some [i1 * 4 + i2 / 16] else Option.none
    else
      (b64Idx? c3).bind (fun i3 =>
      if c4 = padChar then
        if rest = [] then some [i1 * 4 + i2 / 16, i2 % 16 * 16 + i3 / 4] else Option.none
      else
        (b64Idx? c4).bind (fun i4 =>
        (b64DecodeChars rest).map (fun ds =>
          (i1 * 4 + i2 / 16) :: (i2 % 16 * 16 + i3 / 4) :: (i3 % 4 * 64 + i4) :: ds)))))
  | _ => Option.none

/-- The model of `base64.b64decode(s)`: characters outside the alphabet
and padding are discarded first (CPython's lenient scan), then the
remainder must consist of well-padded groups of four. -/
def b64Decode? (s : String) : Option (List Nat) :=
  b64DecodeChars (s.data.filter (fun c => (b64Idx? c).isSome || c = padChar))

/-! ## Round-trip facts about the byte codecs -/

/-- `Char.ofNat` inverts `Char.toNat` on valid code points. -/
theorem toNat_ofNat_of_valid {n : Nat} (h : Nat.isValidChar n) : (Char.ofNat n).toNat = n := by
  rw [Char.ofNat, dif_pos h]
  rfl

set_option maxRecDepth 4096 in
/-- A successful single-character decode yields a valid scalar value
whose encoding is exactly the consumed prefix. -/
theorem utf8DecodeOne_encode {bs : List Nat} {cp : Nat} {rest : List Nat}
    (h : utf8DecodeOne bs = some (cp, rest)) :
    Nat.isValidChar cp ∧ utf8EncodeCp cp ++ rest = bs := by
  match bs with
  | [] => simp [utf8DecodeOne] at h
  | b :: bs =>
    simp only [utf8DecodeOne, isCont, Bool.and_eq_true, Bool.or_eq_true, decide_eq_true_eq] at h
    split at h
    · cases h
      refine ⟨by simp only [Nat.isValidChar]; omega, ?_⟩
      unfold utf8EncodeCp
      rw [if_pos (by omega)]
      rfl
    · split at h
      · cases h
      · split at h
        · split at h
          · split at h
            · cases h
              refine ⟨by simp only [Nat.isValidChar]; omega, ?_⟩
              unfold utf8EncodeCp
              rw [if_neg (by omega), if_pos (by omega)]
              simp only [List.cons_append, List.nil_append, List.cons.injEq, and_true]
              omega
            · cases h
          · cases h
        · split at h
          · split at h
            · split at h
              · split at h
                · cases h
                · cases h
                  refine ⟨by simp only [Nat.isValidChar]; omega, ?_⟩
                  unfold utf8EncodeCp
                  rw [if_neg (by omega), if_neg (by omega), if_pos (by omega)]
                  simp only [List.cons_append, List.nil_append, List.cons.injEq, and_true]
                  omega
              · cases h
            · cases h
          · split at h
            · split at h
              · split at h
                · split at h
                  · cases h
                  · cases h
                    refine ⟨by simp only [Nat.isValidChar]; omega, ?_⟩
                    unfold utf8EncodeCp
                    rw [if_neg (by omega), if_neg (by omega), if_neg (by omega)]
                    simp only [List.cons_append, List.nil_append, List.cons.injEq, and_true]
                    omega
                · cases h
              · cases h
            · cases h

/-- Decoding then re-encoding a UTF-8 byte list is the identity. -/
theorem utf8DecodeAux_encode (bs : List Nat) : ∀ cs : List Char,
    utf8DecodeAux bs = some cs → utf8EncodeChars cs = bs := by
  induction bs using utf8DecodeAux.induct with
  | case1 hone =>
    intro cs h
    rw [utf8DecodeAux.eq_def] at h
    split at h
    · rw [if_pos rfl] at h
      cases h
      rfl
    · rename_i cp rest heq
      rw [hone] at heq
      cases heq
  | case2 bs hone hne =>
    intro cs h
    rw [utf8DecodeAux.eq_def] at h
    split at h
    · rw [if_neg hne] at h
      cases h
    · rename_i cp rest heq
      rw [hone] at heq
      cases heq
  | case3 bs cp rest hone ih =>
    intro cs h
    rw [utf8DecodeAux.eq_def] at h
    split at h
    · rename_i heq
      rw [hone] at heq
      cases heq
    · rename_i cp1 rest1 heq
      rw [hone, Option.some.injEq, Prod.mk.injEq] at heq
      obtain ⟨hcp, hrest⟩ := heq
      subst hcp
      subst hrest
      rw [Option.map_eq_some'] at h
      obtain ⟨cs1, hdec, hcs⟩ := h
      subst hcs
      obtain ⟨hvalid, henc⟩ := utf8DecodeOne_encode hone
      rw [utf8EncodeChars, toNat_ofNat_of_valid hvalid, ih cs1 hdec, henc]

/-- The model of `s.decode("utf-8")` then `.encode("utf-8")` is the
identity on its success domain. -/
theorem utf8Decode_encode {bs : List Nat} {s : String}
    (h : utf8Decode? bs = some s) : utf8EncodeStr s = bs := by
  rw [utf8Decode?, Option.map_eq_some'] at h
  obtain ⟨cs, hdec, hs⟩ := h
  subst hs
  exact utf8DecodeAux_encode bs cs hdec

/-- `b64Idx?` inverts `b64Chr` on six-bit values. -/
theorem b64Idx?_b64Chr : ∀ i : Nat, i < 64 → b64Idx? (b64Chr i) = some i := by
  decide

/-- Alphabet characters are never the padding character. -/
theorem b64Chr_ne_pad : ∀ i : Nat, i < 64 → b64Chr i ≠ padChar := by
  decide

/-- Every character emitted by the encoder survives the decoder's
character filter. -/
theorem b64Encode_chars_keep {bs : List Nat} (h : ∀ b ∈ bs, b < 256) :
    ∀ c ∈ b64EncodeChars bs, ((b64Idx? c).isSome || c = padChar) = true := by
  induction bs using b64EncodeChars.induct with
  | case1 => intro c hc; cases hc
  | case2 a =>
    have ha : a < 256 := h a (by simp)
    intro c hc
    simp only [b64EncodeChars, List.mem_cons, List.not_mem_nil, or_false] at hc
    rcases hc with rfl | rfl | rfl | rfl
    · simp [b64Idx?_b64Chr (a / 4) (by omega)]
    · simp [b64Idx?_b64Chr (a % 4 * 16) (by omega)]
    · simp
    · simp
  | case3 a b =>
    have ha : a < 256 := h a (by simp)
    have hb : b < 256 := h b (by simp)
    intro c hc
    simp only [b64EncodeChars, List.mem_cons, List.not_mem_nil, or_false] at hc
    rcases hc with rfl | rfl | rfl | rfl
    · simp [b64Idx?_b64Chr (a / 4) (by omega)]
    · simp [b64Idx?_b64Chr (a % 4 * 16 + b / 16) (by omega)]
    · simp [b64Idx?_b64Chr (b % 16 * 4) (by omega)]
    · simp
  | case4 a b c0 rest ih =>
    have ha : a < 256 := h a (by simp)
    have hb : b < 256 := h b (by simp)
    have hc0 : c0 < 256 := h c0 (by simp)
    intro c hc
    simp only [b64EncodeChars, List.mem_cons] at hc
    rcases hc with rfl | rfl | rfl | rfl | hc
    · simp [b64Idx?_b64Chr (a / 4) (by omega)]
    · simp [b64Idx?_b64Chr (a % 4 * 16 + b / 16) (by omega)]
    · simp [b64Idx?_b64Chr (b % 16 * 4 + c0 / 64) (by omega)]
    · simp [b64Idx?_b64Chr (c0 % 64) (by omega)]
    · exact ih (fun x hx => h x (by simp [hx])) c hc

/-- Decoding the encoder's character stream restores the bytes. -/
theorem b64DecodeChars_encode {bs : List Nat} (h : ∀ b ∈ bs, b < 256) :
    b64DecodeChars (b64EncodeChars bs) = some bs := by
  induction bs using b64EncodeChars.induct with
  | case1 => rfl
  | case2 a =>
    have ha : a < 256 := h a (by simp)
    rw [b64EncodeChars, b64DecodeChars, b64Idx?_b64Chr (a / 4) (by omega)]
    simp only [Option.some_bind]
    rw [b64Idx?_b64Chr (a % 4 * 16) (by omega)]
    simp only [Option.some_bind, if_pos rfl, if_true, and_self, ite_true,
      Option.some.injEq, List.cons.injEq, and_true]
    omega
  | case3 a b =>
    have ha : a < 256 := h a (by simp)
    have hb : b < 256 := h b (by simp)
    rw [b64EncodeChars, b64DecodeChars, b64Idx?_b64Chr (a / 4) (by omega)]
    simp only [Option.some_bind]
    rw [b64Idx?_b64Chr (a % 4 * 16 + b / 16) (by omega)]
    simp only [Option.some_bind]
    rw [if_neg (b64Chr_ne_pad (b % 16 * 4) (by omega)),
      b64Idx?_b64Chr (b % 16 * 4) (by omega)]
    simp only [Option.some_bind, if_pos rfl, if_true, ite_true,
      Option.some.injEq, List.cons.injEq, and_true]
    refine ⟨by omega, by omega⟩
  | case4 a b c0 rest ih =>
    have ha : a < 256 := h a (by simp)
    have hb : b < 256 := h b (by simp)
    have hc0 : c0 < 256 := h c0 (by simp)
    rw [b64EncodeChars, b64DecodeChars, b64Idx?_b64Chr (a / 4) (by omega)]
    simp only [Option.some_bind]
    rw [b64Idx?_b64Chr (a % 4 * 16 + b / 16) (by omega)]
    simp only [Option.some_bind]
    rw [if_neg (b64Chr_ne_pad (b % 16 * 4 + c0 / 64) (by omega)),
      b64Idx?_b64Chr (b % 16 * 4 + c0 / 64) (by omega)]
    simp only [Option.some_bind]
    rw [if_neg (b64Chr_ne_pad (c0 % 64) (by omega)),
      b64Idx?_b64Chr (c0 % 64) (by omega)]
    simp only [Option.some_bind]
    rw [ih (fun x hx => h x (by simp [hx]))]
    simp only [Option.map_some', Option.some.injEq, List.cons.injEq, and_true]
    refine ⟨by omega, by omega, by omega⟩

/-- The model of `base64.b64decode` inverts the model of
`base64.b64encode` on byte lists. -/
theorem b64Decode_encode {bs : List Nat} (h : ∀ b ∈ bs, b < 256) :
    b64Decode? (b64Encode bs) = some bs := by
  rw [b64Decode?, b64Encode]
  have hfil : (b64EncodeChars bs).filter (fun c => (b64Idx? c).isSome || c = padChar)
      = b64EncodeChars bs :=
    List.filter_eq_self.mpr (b64Encode_chars_keep h)
  rw [show (String.mk (b64EncodeChars bs)).data = b64EncodeChars bs from rfl, hfil]
  exact b64DecodeChars_encode h

/-! ## The serializer: `serialize_value` over an explicit heap

The source tracks "currently being encoded" object identities in the
mutable set `_seen`.  Here the heap maps addresses to the container
objects stored there, and `seen` is threaded functionally: the pure
function below passes `insert a seen` to the children of the container
at address `a`, which has the same meaning as `seen.add` before the
children and `seen.discard` after them.  `serializeValSt` further down
is the literal translation with explicit add/erase and is proved to
agree with this one. -/

/-- A heap: addresses of the containers that are aliased or
self-referential, mapped to their stored values. -/
def Heap := List (Nat × PyVal)

/-- Addresses bound in a heap. -/
def heapDom (σ : Heap) : Finset Nat :=
  (List.map Prod.fst σ).toFinset

/-- Heap lookup. -/
def heapGet? : Heap → Nat → Option PyVal
  | [], _ => Option.none
  | (a, w) :: rest, b => if a = b then some w else heapGet? rest b

/-- A successful lookup means the address is bound. -/
theorem heapGet?_mem_dom {σ : Heap} {a : Nat} {w : PyVal}
    (h : heapGet? σ a = some w) : a ∈ heapDom σ := by
  induction σ with
  | nil => cases h
  | cons p rest ih =>
    obtain ⟨b, v⟩ := p
    rw [heapGet?] at h
    by_cases hb : b = a
    · subst hb
      simp [heapDom]
    · rw [if_neg hb] at h
      have := ih h
      simp only [heapDom, List.map_cons, List.toFinset_cons, Finset.mem_insert]
      right
      simpa [heapDom] using this

/-- Removing a fresh bound address from the unseen part of the domain
shrinks it. -/
theorem card_sdiff_insert_lt {dom seen : Finset Nat} {a : Nat}
    (hdom : a ∈ dom) (hseen : a ∉ seen) :
    (dom \ insert a seen).card < (dom \ seen).card := by
  apply Finset.card_lt_card
  rw [Finset.ssubset_iff_of_subset
    (Finset.sdiff_subset_sdiff (Finset.Subset.refl _) (Finset.subset_insert a seen))]
  exact ⟨a, Finset.mem_sdiff.mpr ⟨hdom, hseen⟩,
    fun hmem => (Finset.mem_sdiff.mp hmem).2 (Finset.mem_insert_self a seen)⟩

/-- The `\x7b"__circular_ref__": True\x7d` marker emitted for a value that
contains itself. -/
def circularTag : PyVal := .dict [(sk "__circular_ref__", .bool true)]

/-- The `\x7b"__argparse__": m\x7d` marker for the two argparse sentinels. -/
def argTag (m : String) : PyVal := .dict [(sk "__argparse__", .str m)]

mutual

/-- The model of `serialize_value` (`_values.py`): dispatch follows the
source order — `None`, the two argparse sentinels (`SUPPRESS` by
identity, `REMAINDER` by equality with the string `"..."`), primitives,
the identity-based circular check, then the per-type handlers. -/
def serializeVal (σ : Heap) (seen : Finset Nat) : PyVal → PyVal
  | .none => .none
  | .suppress => argTag "SUPPRESS"
  | .bool b => .bool b
  | .int i => .int i
  | .float f => .float f
  | .str s => if s = "..." then argTag "REMAINDER" else .str s
  | .ref a =>
    if a ∈ seen then circularTag
    else
      match hget : heapGet? σ a with
      | some w => serializeVal σ (insert a seen) w
      | Option.none => .none
  | .list es => .list (serializeList σ seen es)
  | .tupl es => .list (serializeList σ seen es)
  | .dict kvs => .dict (pyDictOf (serializeKVs σ seen kvs))
  | .set es => .dict [(sk "__set__", .list (serializeList σ seen (sortByStr es)))]
  | .fset es => .dict [(sk "__frozenset__", .list (serializeList σ seen (sortByStr es)))]
  | .enum cls modu val nm =>
    .dict [(sk "__enum__", .bool true), (sk "class", .str cls), (sk "module", .str modu),
      (sk "value", val), (sk "name", .str nm)]
  | .bytes bs =>
    match utf8Decode? bs with
    | some s => .dict [(sk "__bytes__", .str s)]
    | Option.none => .dict [(sk "__bytes_b64__", .str (b64Encode bs))]
  | .rng a b c => .dict [(sk "__range__", .list [.int a, .int b, .int c])]
  | .typ nm modu =>
    .dict [(sk "__type__", .bool true), (sk "name", .str nm), (sk "module", .str modu)]
  | .obj r t =>
    .dict [(sk "__repr__", .str r), (sk "__type_name__", .str t),
      (sk "__serializable__", .bool false)]
termination_by v => ((heapDom σ \ seen).card, sizeOf v)
decreasing_by
  · exact Prod.Lex.left _ _ (card_sdiff_insert_lt (heapGet?_mem_dom hget) (by assumption))
  · exact Prod.Lex.right _ (by simp)
  · exact Prod.Lex.right _ (by simp)
  · exact Prod.Lex.right _ (by simp)
  · exact Prod.Lex.right _ (by
      rw [sortByStr, List.Perm.sizeOf_eq_sizeOf (List.perm_insertionSort _ es)]
      simp)
  · exact Prod.Lex.right _ (by
      rw [sortByStr, List.Perm.sizeOf_eq_sizeOf (List.perm_insertionSort _ es)]
      simp)

/-- `_serialize_sequence` body: serialize the members in order. -/
def serializeList (σ : Heap) (seen : Finset Nat) : List PyVal → List PyVal
  | [] => []
  | v :: rest => serializeVal σ seen v :: serializeList σ seen rest
termination_by l => ((heapDom σ \ seen).card, sizeOf l)
decreasing_by
  · exact Prod.Lex.right _ (by simp only [List.cons.sizeOf_spec]; omega)
  · exact Prod.Lex.right _ (by simp only [List.cons.sizeOf_spec]; omega)

/-- `_serialize_dict` body: coerce each key with `str` and serialize
each value. -/
def serializeKVs (σ : Heap) (seen : Finset Nat) : List (PyKey × PyVal) → List (PyKey × PyVal)
  | [] => []
  | (k, v) :: rest => (sk k.str, serializeVal σ seen v) :: serializeKVs σ seen rest
termination_by l => ((heapDom σ \ seen).card, sizeOf l)
decreasing_by
  · exact Prod.Lex.right _ (by simp only [List.cons.sizeOf_spec, Prod.mk.sizeOf_spec]; omega)
  · exact Prod.Lex.right _ (by simp only [List.cons.sizeOf_spec]; omega)

end

/-- `serialize_value(v)` at top level: empty `_seen` set.  The heap
argument resolves `ref` nodes; pure tree values ignore it. -/
def serialize_value (σ : Heap) (v : PyVal) : PyVal :=
  serializeVal σ ∅ v

/-! ## The deserializer: `deserialize_value` -/

/-- Result of calling a located enum class on the stored value
(`enum_class(value["value"])` in `_deserialize_enum`): a member, an
exception caught by the surrounding `except` clause
(`ValueError`/`KeyError`-like), or an exception that escapes. -/
inductive EnumCall where
  | ok : PyVal → EnumCall
  | caught : EnumCall
  | uncaught : EnumCall

/-- The host import machinery used by `_deserialize_enum` and
`_deserialize_type`: module availability, attribute lookup and enum
construction are environment facts, not codec logic. -/
structure ImportEnv where
  hasModule : String → Bool
  getattr : String → String → Option PyVal
  callCls : String → String → PyVal → EnumCall

/-- `isinstance(v, str)` together with the string it holds (the
`SUPPRESS` sentinel is the string `"==SUPPRESS=="`). -/
def asStr? : PyVal → Option String
  | .str s => some s
  | .suppress => some "==SUPPRESS=="
  | _ => Option.none

/-- Whether a module name is a relative import name
(`name.startswith(".")` in `import_module`, which then raises
`TypeError` because no `package` argument is given). -/
def dotLeading (s : String) : Bool :=
  match s.data with
  | [] => false
  | c :: _ => c = '.'

/-- Whether a value is a bytes object (its `startswith` method raises
`TypeError` on a str argument inside `import_module`). -/
def isBytes : PyVal → Bool
  | .bytes _ => true
  | _ => false

/-- The purely primitive Python value behind a dictionary key. -/
def keyVal : PyKey → PyVal
  | .noneK => .none
  | .boolK b => .bool b
  | .intK i => .int i
  | .strK s => .str s

mutual

/-- Python hashability of a modelled value: lists, dicts and sets are
unhashable, tuples and frozensets hash when their members do. -/
def isHashable : PyVal → Bool
  | .list _ => false
  | .dict _ => false
  | .set _ => false
  | .tupl es => isHashableList es
  | .fset es => isHashableList es
  | _ => true
termination_by v => (sizeOf v, 0)
decreasing_by
  · exact Prod.Lex.left _ _ (by simp)
  · exact Prod.Lex.left _ _ (by simp)

/-- Hashability of every member. -/
def isHashableList : List PyVal → Bool
  | [] => true
  | v :: rest => isHashable v && isHashableList rest
termination_by l => (sizeOf l, 0)
decreasing_by
  · exact Prod.Lex.left _ _ (by simp only [List.cons.sizeOf_spec]; omega)
  · exact Prod.Lex.left _ _ (by simp only [List.cons.sizeOf_spec]; omega)

end

mutual

/-- Structural equality of modelled values, the model of Python `==`
used when `set(...)` deduplicates its elements. -/
def beqVal : PyVal → PyVal → Bool
  | .none, .none => true
  | .bool a, .bool b => a = b
  | .int a, .int b => a = b
  | .float a, .float b => a = b
  | .str a, .str b => a = b
  | .suppress, .suppress => true
  | .list a, .list b => beqList a b
  | .tupl a, .tupl b => beqList a b
  | .dict a, .dict b => beqKVs a b
  | .set a, .set b => beqList a b
  | .fset a, .fset b => beqList a b
  | .enum c1 m1 v1 n1, .enum c2 m2 v2 n2 => c1 = c2 && m1 = m2 && beqVal v1 v2 && n1 = n2
  | .bytes a, .bytes b => a = b
  | .rng a1 b1 c1, .rng a2 b2 c2 => a1 = a2 && b1 = b2 && c1 = c2
  | .typ n1 m1, .typ n2 m2 => n1 = n2 && m1 = m2
  | .obj r1 t1, .obj r2 t2 => r1 = r2 && t1 = t2
  | .ref a, .ref b => a = b
  | _, _ => false
termination_by v _ => (sizeOf v, 0)
decreasing_by
  all_goals exact Prod.Lex.left _ _ (by simp only [PyVal.list.sizeOf_spec,
    PyVal.tupl.sizeOf_spec, PyVal.dict.sizeOf_spec, PyVal.set.sizeOf_spec,
    PyVal.fset.sizeOf_spec, PyVal.enum.sizeOf_spec] <;> omega)

/-- Member-wise equality of value lists. -/
def beqList : List PyVal → List PyVal → Bool
  | [], [] => true
  | a :: as1, b :: bs1 => beqVal a b && beqList as1 bs1
  | _, _ => false
termination_by l _ => (sizeOf l, 0)
decreasing_by
  all_goals exact Prod.Lex.left _ _ (by simp only [List.cons.sizeOf_spec]; omega)

/-- Entry-wise equality of dictionary entry lists. -/
def beqKVs : List (PyKey × PyVal) → List (PyKey × PyVal) → Bool
  | [], [] => true
  | (k1, v1) :: r1, (k2, v2) :: r2 => k1 = k2 && beqVal v1 v2 && beqKVs r1 r2
  | _, _ => false
termination_by l _ => (sizeOf l, 0)
decreasing_by
  all_goals exact Prod.Lex.left _ _ (by
    simp only [List.cons.sizeOf_spec, Prod.mk.sizeOf_spec]; omega)

end

/-- Membership under `beqVal`. -/
def memB (v : PyVal) : List PyVal → Bool
  | [] => false
  | w :: rest => beqVal v w || memB v rest

/-- Deduplication keeping first occurrences: the canonical
representative chosen for the iteration order of a freshly built
Python set (whose true order is hash-dependent). -/
def dedupFirst (l : List PyVal) : List PyVal :=
  go l []
where
  /-- Drop values already kept. -/
  go : List PyVal → List PyVal → List PyVal
    | [], _ => []
    | v :: rest, kept => if memB v kept then go rest kept else v :: go rest (v :: kept)

/-- Number of elements of `range(a, b, c)`. -/
def rangeLen (a b c : Int) : Nat :=
  if c > 0 then ((b - a + c - 1) / c).toNat
  else if c < 0 then ((a - b + (-c) - 1) / (-c)).toNat
  else 0

/-- The elements of `range(a, b, c)` (`c ≠ 0` for any constructible
Python range). -/
def rangeElems (a b c : Int) : List PyVal :=
  (List.range (rangeLen a b c)).map (fun k => .int (a + c * k))

/-- `int(x)` acceptance for range arguments: ints and bools index,
everything else raises `TypeError`. -/
def toIndex? : PyVal → Option Int
  | .int i => some i
  | .bool b => some (if b then 1 else 0)
  | _ => Option.none

/-- Argument unpacking `range(*payload)` and the non-container
iterables of `set(... for v in payload)`: what iterating the payload
yields, or `none` when the payload is not iterable (`TypeError`). -/
def unpackAtoms? : PyVal → Option (List PyVal)
  | .str s => some (s.data.map (fun c => .str (String.mk [c])))
  | .suppress => some ("==SUPPRESS==".data.map (fun c => .str (String.mk [c])))
  | .dict kvs => some (kvs.map (fun kv => keyVal kv.1))
  | .bytes bs => some (bs.map (fun b => .int b))
  | .rng a b c => some (rangeElems a b c)
  | _ => Option.none

/-- The model of `range(*value["__range__"])`: 1–3 integral arguments,
a zero step raises `ValueError`, anything else `TypeError`. -/
def deserializeRange (payload : PyVal) : Option PyVal :=
  let args? : Option (List PyVal) :=
    match payload with
    | .list es => some es
    | .tupl es => some es
    | .set es => some es
    | .fset es => some es
    | other => unpackAtoms? other
  match args? with
  | Option.none => Option.none
  | some args =>
    match args.mapM toIndex? with
    | some [s] => some (.rng 0 s 1)
    | some [a, b] => some (.rng a b 1)
    | some [a, b, c] => if c = 0 then Option.none else some (.rng a b c)
    | _ => Option.none

/-- The model of `_deserialize_argparse_marker`. -/
def deserializeArgMarker (payload : PyVal) : PyVal :=
  match payload with
  | .str s => if s = "SUPPRESS" then .suppress
      else if s = "REMAINDER" then .str "..." else .none
  | _ => .none

/-- The model of `_deserialize_enum`: lookup failures (`KeyError`) and
`ImportError`/`AttributeError`/`ValueError` fall back to
`value.get("value")`; exceptions the `except` clause does not list
escape (`none`): `import_module` on a bytes module name raises
`TypeError` from `name.startswith`, a relative (dot-leading) module
name raises `TypeError` with no `package` argument, and `getattr` on a
non-string class name raises `TypeError`.  `import_module("")` raises
`ValueError`, which this clause does catch.  A module entry of any
other non-string type raises `AttributeError` at `name.startswith`
(caught). -/
def deserializeEnum (env : ImportEnv) (kvs : List (PyKey × PyVal)) : Option PyVal :=
  let fallback : Option PyVal := some ((getKey? kvs "value").getD PyVal.none)
  match getKey? kvs "module" with
  | Option.none => fallback
  | some mv =>
    match asStr? mv with
    | Option.none =>
      match mv with
      | .bytes _ => Option.none
      | _ => fallback
    | some ms =>
      if dotLeading ms then Option.none
      else if ms = "" then fallback
      else if env.hasModule ms then
        match getKey? kvs "class" with
        | Option.none => fallback
        | some cv =>
          match asStr? cv with
          | Option.none => Option.none
          | some cs =>
            match env.getattr ms cs with
            | Option.none => fallback
            | some _ =>
              match getKey? kvs "value" with
              | Option.none => fallback
              | some arg =>
                match env.callCls ms cs arg with
                | .ok v => some v
                | .caught => fallback
                | .uncaught => Option.none
      else fallback

/-- The model of `_deserialize_type`: lookup failures (`KeyError`) and
`ImportError`/`AttributeError` return the tagged mapping unchanged;
exceptions outside that clause escape (`none`): a bytes module name
raises `TypeError` from `name.startswith`, a relative (dot-leading)
module name raises `TypeError` with no `package` argument,
`import_module("")` raises `ValueError` — not caught here, unlike in
`_deserialize_enum` — and `getattr` on a non-string name raises
`TypeError`.  A module entry of any other non-string type raises
`AttributeError` at `name.startswith` (caught). -/
def deserializeType (env : ImportEnv) (kvs : List (PyKey × PyVal)) : Option PyVal :=
  let fallback : Option PyVal := some (.dict kvs)
  match getKey? kvs "module" with
  | Option.none => fallback
  | some mv =>
    match asStr? mv with
    | Option.none =>
      match mv with
      | .bytes _ => Option.none
      | _ => fallback
    | some ms =>
      if dotLeading ms then Option.none
      else if ms = "" then Option.none
      else if env.hasModule ms then
        match getKey? kvs "name" with
        | Option.none => fallback
        | some nv =>
          match asStr? nv with
          | Option.none => Option.none
          | some ns =>
            match env.getattr ms ns with
            | some v => some v
            | Option.none => fallback
      else fallback

/-- A value found under a present key is smaller than the entry list. -/
theorem sizeOf_getKey?_lt {kvs : List (PyKey × PyVal)} {s : String} {v : PyVal}
    (h : getKey? kvs s = some v) : sizeOf v < sizeOf kvs := by
  induction kvs with
  | nil => cases h
  | cons p rest ih =>
    obtain ⟨k, w⟩ := p
    rw [getKey?] at h
    split at h
    · cases h
      simp only [List.cons.sizeOf_spec, Prod.mk.sizeOf_spec]
      omega
    · have := ih h
      simp only [List.cons.sizeOf_spec, Prod.mk.sizeOf_spec]
      omega

/-- `hasKey` means `getKey?` succeeds. -/
theorem getKey?_isSome_of_hasKey {kvs : List (PyKey × PyVal)} {s : String}
    (h : hasKey kvs s = true) : (getKey? kvs s).isSome := by
  induction kvs with
  | nil => cases h
  | cons p rest ih =>
    obtain ⟨k, w⟩ := p
    rw [hasKey, List.any_cons] at h
    rw [getKey?]
    by_cases hk : k = PyKey.strK s
    · rw [if_pos hk]
      rfl
    · rw [if_neg hk]
      apply ih
      rw [hasKey]
      simp only [Bool.or_eq_true, decide_eq_true_eq] at h
      rcases h with h | h
      · exact absurd h hk
      · exact h

/-- The default-lookup of a present key is smaller than the entry list. -/
theorem sizeOf_getKeyD_lt {kvs : List (PyKey × PyVal)} {s : String}
    (h : hasKey kvs s = true) : sizeOf (getKeyD kvs s) < sizeOf kvs := by
  obtain ⟨v, hv⟩ := Option.isSome_iff_exists.mp (getKey?_isSome_of_hasKey h)
  rw [getKeyD, hv]
  exact sizeOf_getKey?_lt hv

mutual

/-- The model of `deserialize_value` (`_values.py`): primitives pass
through, lists recurse member-wise, dictionaries go through the tagged
dispatch, and every other value is returned unchanged (the final
`return value`). -/
def deserialize_value (env : ImportEnv) : PyVal → Option PyVal
  | .list es => (deserializeList env es).map .list
  | .dict kvs => deserializeDict env kvs
  | v => some v
termination_by v => (sizeOf v, 0)
decreasing_by
  · exact Prod.Lex.left _ _ (by simp)
  · exact Prod.Lex.left _ _ (by simp)

/-- Member-wise deserialization of a list, propagating any raise. -/
def deserializeList (env : ImportEnv) : List PyVal → Option (List PyVal)
  | [] => some []
  | v :: rest =>
    match deserialize_value env v with
    | some r => (deserializeList env rest).map (fun rs => r :: rs)
    | Option.none => Option.none
termination_by l => (sizeOf l, 0)
decreasing_by
  · exact Prod.Lex.left _ _ (by simp only [List.cons.sizeOf_spec]; omega)
  · exact Prod.Lex.left _ _ (by simp only [List.cons.sizeOf_spec]; omega)

/-- Value-wise deserialization of dictionary entries. -/
def deserializeKVs (env : ImportEnv) : List (PyKey × PyVal) → Option (List (PyKey × PyVal))
  | [] => some []
  | (k, v) :: rest =>
    match deserialize_value env v with
    | some r => (deserializeKVs env rest).map (fun rs => (k, r) :: rs)
    | Option.none => Option.none
termination_by l => (sizeOf l, 0)
decreasing_by
  · exact Prod.Lex.left _ _ (by simp only [List.cons.sizeOf_spec, Prod.mk.sizeOf_spec]; omega)
  · exact Prod.Lex.left _ _ (by simp only [List.cons.sizeOf_spec]; omega)

/-- The model of `_deserialize_dict`: the reserved tags are tried in
the source order, each by key presence alone; a mapping with no
reserved tag deserializes value-wise. -/
def deserializeDict (env : ImportEnv) (kvs : List (PyKey × PyVal)) : Option PyVal :=
  if hasKey kvs "__argparse__" then
    some (deserializeArgMarker (getKeyD kvs "__argparse__"))
  else if h2 : hasKey kvs "__set__" then
    (deserializeElems env (getKeyD kvs "__set__")).bind (fun rs =>
      if isHashableList rs then some (.set (dedupFirst rs)) else Option.none)
  else if h3 : hasKey kvs "__frozenset__" then
    (deserializeElems env (getKeyD kvs "__frozenset__")).bind (fun rs =>
      if isHashableList rs then some (.fset (dedupFirst rs)) else Option.none)
  else if hasKey kvs "__bytes__" then
    match asStr? (getKeyD kvs "__bytes__") with
    | some s => some (.bytes (utf8EncodeStr s))
    | Option.none => Option.none
  else if hasKey kvs "__bytes_b64__" then
    match asStr? (getKeyD kvs "__bytes_b64__") with
    | some s => (b64Decode? s).map .bytes
    | Option.none => Option.none
  else if hasKey kvs "__range__" then
    deserializeRange (getKeyD kvs "__range__")
  else if hasKey kvs "__enum__" then
    deserializeEnum env kvs
  else if hasKey kvs "__type__" then
    deserializeType env kvs
  else if hasKey kvs "__repr__" then
    (match getKey? kvs "__serializable__" with
     | some (.bool false) => some PyVal.none
     | _ => some (.dict kvs))
  else if hasKey kvs "__circular_ref__" then
    some PyVal.none
  else
    (deserializeKVs env kvs).map (fun rs => .dict (pyDictOf rs))
termination_by (sizeOf kvs, 1)
decreasing_by
  · exact Prod.Lex.left _ _ (sizeOf_getKeyD_lt h2)
  · exact Prod.Lex.left _ _ (sizeOf_getKeyD_lt h3)
  · exact Prod.Lex.right _ (by omega)

/-- `set(deserialize_value(v) for v in payload)` /
`frozenset(...)`: containers deserialize member-wise; the remaining
iterables yield primitives, which deserialize to themselves; anything
else raises `TypeError`. -/
def deserializeElems (env : ImportEnv) (payload : PyVal) : Option (List PyVal) :=
  match payload with
  | .list es => deserializeList env es
  | .tupl es => deserializeList env es
  | .set es => deserializeList env es
  | .fset es => deserializeList env es
  | other => unpackAtoms? other
termination_by (sizeOf payload, 1)
decreasing_by
  · exact Prod.Lex.left _ _ (by simp)
  · exact Prod.Lex.left _ _ (by simp)
  · exact Prod.Lex.left _ _ (by simp)
  · exact Prod.Lex.left _ _ (by simp)

end

/-! ## The literal `_seen`-threading serializer

`serializeVal` above passes the identity set functionally.  The
functions below are the literal translation of the source's mutation
protocol: `_seen.add(obj_id)` before the children, sequential
left-to-right encoding of the children against the same set, and
`_seen.discard(obj_id)` afterwards, with a fuel parameter standing for
the call stack (`none` = fuel exhausted). -/

mutual

/-- State-threaded `serialize_value`. -/
def serializeValSt (σ : Heap) (fuel : Nat) :
    PyVal → Finset Nat → Option (PyVal × Finset Nat)
  | .none, seen => some (.none, seen)
  | .suppress, seen => some (argTag "SUPPRESS", seen)
  | .bool b, seen => some (.bool b, seen)
  | .int i, seen => some (.int i, seen)
  | .float f, seen => some (.float f, seen)
  | .str s, seen => some (if s = "..." then argTag "REMAINDER" else .str s, seen)
  | .ref a, seen =>
    if a ∈ seen then some (circularTag, seen)
    else
      match hget : heapGet? σ a with
      | some w =>
        match fuel with
        | 0 => Option.none
        | fuel1 + 1 =>
          match serializeValSt σ fuel1 w (insert a seen) with
          | some (r, seen1) => some (r, seen1.erase a)
          | Option.none => Option.none
      | Option.none => some (.none, seen)
  | .list es, seen =>
    (serializeListSt σ fuel es seen).map (fun p => (.list p.1, p.2))
  | .tupl es, seen =>
    (serializeListSt σ fuel es seen).map (fun p => (.list p.1, p.2))
  | .dict kvs, seen =>
    (serializeKVsSt σ fuel kvs seen).map (fun p => (.dict (pyDictOf p.1), p.2))
  | .set es, seen =>
    (serializeListSt σ fuel (sortByStr es) seen).map
      (fun p => (.dict [(sk "__set__", .list p.1)], p.2))
  | .fset es, seen =>
    (serializeListSt σ fuel (sortByStr es) seen).map
      (fun p => (.dict [(sk "__frozenset__", .list p.1)], p.2))
  | .enum cls modu val nm, seen =>
    some (.dict [(sk "__enum__", .bool true), (sk "class", .str cls),
      (sk "module", .str modu), (sk "value", val), (sk "name", .str nm)], seen)
  | .bytes bs, seen =>
    some (match utf8Decode? bs with
      | some s => .dict [(sk "__bytes__", .str s)]
      | Option.none => .dict [(sk "__bytes_b64__", .str (b64Encode bs))], seen)
  | .rng a b c, seen => some (.dict [(sk "__range__", .list [.int a, .int b, .int c])], seen)
  | .typ nm modu, seen =>
    some (.dict [(sk "__type__", .bool true), (sk "name", .str nm),
      (sk "module", .str modu)], seen)
  | .obj r t, seen =>
    some (.dict [(sk "__repr__", .str r), (sk "__type_name__", .str t),
      (sk "__serializable__", .bool false)], seen)
termination_by v _ => (fuel, sizeOf v)
decreasing_by
  · exact Prod.Lex.left _ _ (by omega)
  · exact Prod.Lex.right _ (by simp)
  · exact Prod.Lex.right _ (by simp)
  · exact Prod.Lex.right _ (by simp)
  · exact Prod.Lex.right _ (by
      rw [sortByStr, List.Perm.sizeOf_eq_sizeOf (List.perm_insertionSort _ es)]
      simp)
  · exact Prod.Lex.right _ (by
      rw [sortByStr, List.Perm.sizeOf_eq_sizeOf (List.perm_insertionSort _ es)]
      simp)

/-- State-threaded `_serialize_sequence` body: children encoded left to
right against the threaded set. -/
def serializeListSt (σ : Heap) (fuel : Nat) :
    List PyVal → Finset Nat → Option (List PyVal × Finset Nat)
  | [], seen => some ([], seen)
  | v :: rest, seen =>
    match serializeValSt σ fuel v seen with
    | some (r, seen1) =>
      (serializeListSt σ fuel rest seen1).map (fun p => (r :: p.1, p.2))
    | Option.none => Option.none
termination_by l _ => (fuel, sizeOf l)
decreasing_by
  · exact Prod.Lex.right _ (by simp only [List.cons.sizeOf_spec]; omega)
  · exact Prod.Lex.right _ (by simp only [List.cons.sizeOf_spec]; omega)

/-- State-threaded `_serialize_dict` body. -/
def serializeKVsSt (σ : Heap) (fuel : Nat) :
    List (PyKey × PyVal) → Finset Nat → Option (List (PyKey × PyVal) × Finset Nat)
  | [], seen => some ([], seen)
  | (k, v) :: rest, seen =>
    match serializeValSt σ fuel v seen with
    | some (r, seen1) =>
      (serializeKVsSt σ fuel rest seen1).map (fun p => ((sk k.str, r) :: p.1, p.2))
    | Option.none => Option.none
termination_by l _ => (fuel, sizeOf l)
decreasing_by
  · exact Prod.Lex.right _ (by simp only [List.cons.sizeOf_spec, Prod.mk.sizeOf_spec]; omega)
  · exact Prod.Lex.right _ (by simp only [List.cons.sizeOf_spec]; omega)

end

/-- Unfolding: a reference already being encoded short-circuits to the
circular marker without descending. -/
theorem serializeVal_ref_mem {σ : Heap} {seen : Finset Nat} {a : Nat} (hmem : a ∈ seen) :
    serializeVal σ seen (.ref a) = circularTag := by
  rw [serializeVal, if_pos hmem]

/-- Unfolding: a fresh reference descends into the stored value with
its address pushed. -/
theorem serializeVal_ref_some {σ : Heap} {seen : Finset Nat} {a : Nat} {w : PyVal}
    (hmem : a ∉ seen) (hget : heapGet? σ a = some w) :
    serializeVal σ seen (.ref a) = serializeVal σ (insert a seen) w := by
  rw [serializeVal, if_neg hmem]
  split
  · rename_i w1 hget1
    rw [hget] at hget1
    cases hget1
    rfl
  · rename_i hget1
    rw [hget] at hget1
    cases hget1

/-- Unfolding: a dangling reference (impossible for heaps of live
Python values) serializes as `None`. -/
theorem serializeVal_ref_unbound {σ : Heap} {seen : Finset Nat} {a : Nat}
    (hmem : a ∉ seen) (hget : heapGet? σ a = Option.none) :
    serializeVal σ seen (.ref a) = .none := by
  rw [serializeVal, if_neg hmem]
  split
  · rename_i w1 hget1
    rw [hget] at hget1
    cases hget1
  · rfl

/-- Unfolding of the threaded serializer at an already-seen reference. -/
theorem serializeValSt_ref_mem {σ : Heap} {fuel : Nat} {seen : Finset Nat} {a : Nat}
    (hmem : a ∈ seen) :
    serializeValSt σ fuel (.ref a) seen = some (circularTag, seen) := by
  rw [serializeValSt, if_pos hmem]

/-- Unfolding of the threaded serializer at a fresh bound reference
with fuel: push, encode the stored value, then discard. -/
theorem serializeValSt_ref_succ {σ : Heap} {fuel1 : Nat} {seen : Finset Nat} {a : Nat}
    {w : PyVal} (hmem : a ∉ seen) (hget : heapGet? σ a = some w) :
    serializeValSt σ (fuel1 + 1) (.ref a) seen =
      match serializeValSt σ fuel1 w (insert a seen) with
      | some (r, seen1) => some (r, seen1.erase a)
      | Option.none => Option.none := by
  rw [serializeValSt, if_neg hmem]
  split
  · rename_i w1 hget1
    rw [hget] at hget1
    cases hget1
    rfl
  · rename_i hget1
    rw [hget] at hget1
    cases hget1

/-- Unfolding of the threaded serializer at a dangling reference. -/
theorem serializeValSt_ref_unbound {σ : Heap} {fuel : Nat} {seen : Finset Nat} {a : Nat}
    (hmem : a ∉ seen) (hget : heapGet? σ a = Option.none) :
    serializeValSt σ fuel (.ref a) seen = some (.none, seen) := by
  rw [serializeValSt, if_neg hmem]
  split
  · rename_i w1 hget1
    rw [hget] at hget1
    cases hget1
  · rfl

/-- With fuel for the unseen heap addresses, the state-threaded
serializer returns exactly the pure serializer's result and hands the
`_seen` set back unchanged: the `add` before a container's children is
undone by the `discard` after them, so siblings and the parent's
continuation observe the set they started with. -/
theorem serializeSt_spec (σ : Heap) :
    (∀ (fuel : Nat) (v : PyVal) (seen : Finset Nat), (heapDom σ \ seen).card + 1 ≤ fuel →
        serializeValSt σ fuel v seen = some (serializeVal σ seen v, seen)) ∧
    (∀ (fuel : Nat) (kvs : List (PyKey × PyVal)) (seen : Finset Nat),
        (heapDom σ \ seen).card + 1 ≤ fuel →
        serializeKVsSt σ fuel kvs seen = some (serializeKVs σ seen kvs, seen)) ∧
    (∀ (fuel : Nat) (l : List PyVal) (seen : Finset Nat), (heapDom σ \ seen).card + 1 ≤ fuel →
        serializeListSt σ fuel l seen = some (serializeList σ seen l, seen)) := by
  apply serializeValSt.mutual_induct σ
    (fun fuel v seen => (heapDom σ \ seen).card + 1 ≤ fuel →
      serializeValSt σ fuel v seen = some (serializeVal σ seen v, seen))
    (fun fuel kvs seen => (heapDom σ \ seen).card + 1 ≤ fuel →
      serializeKVsSt σ fuel kvs seen = some (serializeKVs σ seen kvs, seen))
    (fun fuel l seen => (heapDom σ \ seen).card + 1 ≤ fuel →
      serializeListSt σ fuel l seen = some (serializeList σ seen l, seen))
  · intro fuel seen _
    rw [serializeValSt, serializeVal]
  · intro fuel seen _
    rw [serializeValSt, serializeVal]
  · intro fuel b seen _
    rw [serializeValSt, serializeVal]
  · intro fuel i seen _
    rw [serializeValSt, serializeVal]
  · intro fuel f seen _
    rw [serializeValSt, serializeVal]
  · intro fuel s seen _
    rw [serializeValSt, serializeVal]
  · intro fuel a seen hmem _
    rw [serializeValSt, serializeVal, if_pos hmem, if_pos hmem]
  · intro a seen hmem w hget hb
    have := card_sdiff_insert_lt (heapGet?_mem_dom hget) hmem
    omega
  · intro a seen hmem w hget fuel1 r seen1 heq ih hb
    have hcard := card_sdiff_insert_lt (heapGet?_mem_dom hget) hmem
    have hih := ih (by omega)
    rw [serializeValSt_ref_succ hmem hget, hih, serializeVal_ref_some hmem hget]
    simp only [Finset.erase_insert hmem]
  · intro a seen hmem w hget fuel1 heq ih hb
    have hcard := card_sdiff_insert_lt (heapGet?_mem_dom hget) hmem
    have hih := ih (by omega)
    rw [hih] at heq
    cases heq
  · intro fuel a seen hmem hget hb
    rw [serializeValSt_ref_unbound hmem hget, serializeVal_ref_unbound hmem hget]
  · intro fuel es seen ih hb
    rw [serializeValSt, serializeVal]
    simp only [ih hb, Option.map_some']
  · intro fuel es seen ih hb
    rw [serializeValSt, serializeVal]
    simp only [ih hb, Option.map_some']
  · intro fuel kvs seen ih hb
    rw [serializeValSt, serializeVal]
    simp only [ih hb, Option.map_some']
  · intro fuel es seen ih hb
    rw [serializeValSt, serializeVal]
    simp only [ih hb, Option.map_some']
  · intro fuel es seen ih hb
    rw [serializeValSt, serializeVal]
    simp only [ih hb, Option.map_some']
  · intro fuel cls modu val nm seen _
    rw [serializeValSt, serializeVal]
  · intro fuel bs seen _
    rw [serializeValSt, serializeVal]
  · intro fuel a b c seen _
    rw [serializeValSt, serializeVal]
  · intro fuel nm modu seen _
    rw [serializeValSt, serializeVal]
  · intro fuel r t seen _
    rw [serializeValSt, serializeVal]
  · intro fuel seen _
    rw [serializeKVsSt, serializeKVs]
  · intro fuel k v rest seen r seen1 heq ih1 ih2 hb
    have h1 := ih1 hb
    rw [h1] at heq
    rw [Option.some.injEq, Prod.mk.injEq] at heq
    obtain ⟨hr, hs⟩ := heq
    subst hr
    subst hs
    rw [serializeKVsSt, serializeKVs]
    simp only [h1, ih2 hb, Option.map_some']
  · intro fuel k v rest seen heq ih1 hb
    rw [ih1 hb] at heq
    cases heq
  · intro fuel seen _
    rw [serializeListSt, serializeList]
  · intro fuel v rest seen r seen1 heq ih1 ih2 hb
    have h1 := ih1 hb
    rw [h1] at heq
    rw [Option.some.injEq, Prod.mk.injEq] at heq
    obtain ⟨hr, hs⟩ := heq
    subst hr
    subst hs
    rw [serializeListSt, serializeList]
    simp only [h1, ih2 hb, Option.map_some']
  · intro fuel v rest seen heq ih1 hb
    rw [ih1 hb] at heq
    cases heq

/-- Value form of `serializeSt_spec`. -/
theorem serializeValSt_spec {σ : Heap} {fuel : Nat} {v : PyVal} {seen : Finset Nat}
    (h : (heapDom σ \ seen).card + 1 ≤ fuel) :
    serializeValSt σ fuel v seen = some (serializeVal σ seen v, seen) :=
  (serializeSt_spec σ).1 fuel v seen h

/-! ## The type registry: `resolve_type` from `_types.py` -/

/-- `TypeInfo` from `models.py`. -/
structure TypeInfo where
  name : String
  module : Option String := Option.none
  builtin : Bool := false
  serializable : Bool := true

/-- `FileTypeInfo` from `models.py` (defaults match
`argparse.FileType()`). -/
structure FileTypeInfo where
  mode : String := "r"
  bufsize : Int := -1
  encoding : Option String := Option.none
  errors : Option String := Option.none

/-- A resolved type converter, recording which resolution strategy
produced it and its identifying data. -/
inductive Conv where
  | builtinConv : String → Conv
  | fileType : String → Int → Option String → Option String → Conv
  | imported : String → String → Conv
  | builtinsAttr : String → Conv
deriving DecidableEq, Repr

/-- The names in `_BUILTIN_CONVERTERS`. -/
def builtinConverterNames : List String :=
  ["int", "float", "str", "bool", "complex", "bytes", "bytearray", "ascii"]

/-- `_resolve_file_type`: the name+origin sentinel pair selects the
file-opening converter, built from the given parameters or from
defaults. -/
def resolveFileType (ti : TypeInfo) (fti : Option FileTypeInfo) : Option Conv :=
  if ti.name = "FileType" ∧ ti.module = some "argparse" then
    match fti with
    | some f => some (.fileType f.mode f.bufsize f.encoding f.errors)
    | Option.none => some (.fileType "r" (-1) Option.none Option.none)
  else Option.none

/-- `_resolve_builtin`: the fixed table of primitive converters (the
`strict` parameter is accepted and unused, as in the source). -/
def resolveBuiltin (ti : TypeInfo) (_strict : Bool) : Option Conv :=
  if ti.builtin = false then Option.none
  else if ti.name ∈ builtinConverterNames then some (.builtinConv ti.name)
  else Option.none

/-- `_resolve_by_import`, with the host import machinery abstracted as
`imp : module → name → Option Bool` (`none`: import or attribute
failure; `some c`: attribute found, `c` its callability).  An empty or
absent module string is falsy in the source's guard. -/
def resolveByImport (imp : String → String → Option Bool) (ti : TypeInfo)
    (strict : Bool) : Except String (Option Conv) :=
  match ti.module with
  | Option.none => .ok Option.none
  | some m =>
    if m = "" ∨ ti.serializable = false then .ok Option.none
    else
      match imp m ti.name with
      | some true => .ok (some (.imported m ti.name))
      | some false =>
        if strict then .error ("\x27" ++ m ++ "." ++ ti.name ++ "\x27 is not callable")
        else .ok Option.none
      | Option.none =>
        if strict then .error ("Could not import \x27" ++ m ++ "." ++ ti.name ++ "\x27")
        else .ok Option.none

/-- `_resolve_from_builtins_module`, with `hasattr(builtins, ·)` and
callability abstracted as `bns`. -/
def resolveFromBuiltinsModule (bns : String → Option Bool) (ti : TypeInfo) : Option Conv :=
  match bns ti.name with
  | some true => some (.builtinsAttr ti.name)
  | _ => Option.none

/-- The model of `resolve_type`: the non-serializable check first, then
the four strategies in source order, first success wins; exhaustion
raises in strict mode and is absent in lenient mode. -/
def resolve_type (imp : String → String → Option Bool) (bns : String → Option Bool)
    (tiOpt : Option TypeInfo) (ftiOpt : Option FileTypeInfo) (strict : Bool) :
    Except String (Option Conv) :=
  match tiOpt with
  | Option.none => .ok Option.none
  | some ti =>
    if ti.serializable = false then
      if strict then
        .error ("Type \x27" ++ ti.name ++ "\x27 was marked as non-serializable")
      else .ok Option.none
    else
      match resolveFileType ti ftiOpt with
      | some c => .ok (some c)
      | Option.none =>
        match resolveBuiltin ti strict with
        | some c => .ok (some c)
        | Option.none =>
          match resolveByImport imp ti strict with
          | .error e => .error e
          | .ok (some c) => .ok (some c)
          | .ok Option.none =>
            match resolveFromBuiltinsModule bns ti with
            | some c => .ok (some c)
            | Option.none =>
              if strict then .error ("Could not resolve type \x27" ++ ti.name ++ "\x27")
              else .ok Option.none

/-! ## Subparsers alias bookkeeping: `_add_subparsers_info` -/

/-- One step of building `parser_to_names`: append `name` to the names
recorded for parser `pid`, creating the entry on first sight. -/
def addName (acc : List (Nat × List String)) (pid : Nat) (name : String) :
    List (Nat × List String) :=
  match acc with
  | [] => [(pid, [name])]
  | (p, ns) :: rest =>
    if p = pid then (p, ns ++ [name]) :: rest else (p, ns) :: addName rest pid name

/-- `parser_to_names`: parser identity → every name bound to it, in
enumeration order. -/
def parserToNames (pm : List (String × Nat)) : List (Nat × List String) :=
  pm.foldl (fun acc nv => addName acc nv.2 nv.1) []

/-- Lookup in `parser_to_names` (missing id → no names). -/
def lookupNames (p2n : List (Nat × List String)) (pid : Nat) : List String :=
  match p2n with
  | [] => []
  | (p, ns) :: rest => if p = pid then ns else lookupNames rest pid

/-- The main loop of `_add_subparsers_info`, parameterized by the
nested `serialize_parser` call as `sp` and carrying
`serialized_parsers` as the list of already-serialized identities.
Returns `info.subparsers` and `info.subparsers_aliases`. -/
def addSubLoop {P : Type} (sp : Nat → P) (p2n : List (Nat × List String)) :
    List (String × Nat) → List Nat → List (String × P) × List (String × List String)
  | [], _ => ([], [])
  | (name, pid) :: rest, ser =>
    if pid ∈ ser then addSubLoop sp p2n rest ser
    else
      ((name, sp pid) :: (addSubLoop sp p2n rest (pid :: ser)).1,
        if ((lookupNames p2n pid).filter (fun n => n ≠ name)).isEmpty then
          (addSubLoop sp p2n rest (pid :: ser)).2
        else
          (name, (lookupNames p2n pid).filter (fun n => n ≠ name)) ::
            (addSubLoop sp p2n rest (pid :: ser)).2)

/-- The model of `_add_subparsers_info`'s subparsers/aliases
construction over the name→parser-identity map. -/
def add_subparsers_info {P : Type} (sp : Nat → P) (pm : List (String × Nat)) :
    List (String × P) × List (String × List String) :=
  addSubLoop sp (parserToNames pm) pm []

/-- Specification side for the claims: keep each entry whose parser
identity has not occurred earlier (the canonical name of each parser
object, in enumeration order). -/
def firstByAddr : List (String × Nat) → List Nat → List (String × Nat)
  | [], _ => []
  | (name, pid) :: rest, ser =>
    if pid ∈ ser then firstByAddr rest ser
    else (name, pid) :: firstByAddr rest (pid :: ser)

/-- The canonical (first-name) entry per distinct parser object. -/
def canonicalEntries (pm : List (String × Nat)) : List (String × Nat) :=
  firstByAddr pm []

/-- Specification of the alias map: for each canonical entry, the other
names bound to the same parser object, in enumeration order. -/
def aliasSpec (pm : List (String × Nat)) : List (String × List String) :=
  (canonicalEntries pm).filterMap (fun nv =>
    if (((pm.filter (fun q => q.2 = nv.2)).map Prod.fst).filter (fun n => n ≠ nv.1)).isEmpty
    then Option.none
    else some (nv.1, ((pm.filter (fun q => q.2 = nv.2)).map Prod.fst).filter (fun n => n ≠ nv.1)))

/-! ## Predicates used by the claims -/

/-- The reserved tag keys of `_deserialize_dict`, in dispatch order. -/
def reservedTags : List String :=
  ["__argparse__", "__set__", "__frozenset__", "__bytes__", "__bytes_b64__",
   "__range__", "__enum__", "__type__", "__repr__", "__circular_ref__"]

/-- Whether a mapping holds any reserved tag key. -/
def hasReservedTag (kvs : List (PyKey × PyVal)) : Bool :=
  reservedTags.any (fun t => hasKey kvs t)

mutual

/-- JSON-compatibility of a tree: objects, arrays, strings, numbers,
booleans and nulls only (tuples dump as arrays, and any primitive
dictionary key is coerced to a string by `json.dumps`). -/
def jsonCompatible : PyVal → Bool
  | .none => true
  | .bool _ => true
  | .int _ => true
  | .float _ => true
  | .str _ => true
  | .suppress => true
  | .list es => jsonCompatibleList es
  | .tupl es => jsonCompatibleList es
  | .dict kvs => jsonCompatibleKVs kvs
  | _ => false
termination_by v => (sizeOf v, 0)
decreasing_by
  · exact Prod.Lex.left _ _ (by simp)
  · exact Prod.Lex.left _ _ (by simp)
  · exact Prod.Lex.left _ _ (by simp)

/-- JSON-compatibility of every member. -/
def jsonCompatibleList : List PyVal → Bool
  | [] => true
  | v :: rest => jsonCompatible v && jsonCompatibleList rest
termination_by l => (sizeOf l, 0)
decreasing_by
  · exact Prod.Lex.left _ _ (by simp only [List.cons.sizeOf_spec]; omega)
  · exact Prod.Lex.left _ _ (by simp only [List.cons.sizeOf_spec]; omega)

/-- JSON-compatibility of every entry value. -/
def jsonCompatibleKVs : List (PyKey × PyVal) → Bool
  | [] => true
  | (_, v) :: rest => jsonCompatible v && jsonCompatibleKVs rest
termination_by l => (sizeOf l, 0)
decreasing_by
  · exact Prod.Lex.left _ _ (by simp only [List.cons.sizeOf_spec, Prod.mk.sizeOf_spec]; omega)
  · exact Prod.Lex.left _ _ (by simp only [List.cons.sizeOf_spec]; omega)

end

mutual

/-- Whether every enum member occurring in `v` carries a
JSON-compatible underlying value (the encoder embeds `value.value`
raw). -/
def enumValuesJson : PyVal → Bool
  | .list es => enumValuesJsonList es
  | .tupl es => enumValuesJsonList es
  | .set es => enumValuesJsonList es
  | .fset es => enumValuesJsonList es
  | .dict kvs => enumValuesJsonKVs kvs
  | .enum _ _ val _ => jsonCompatible val
  | _ => true
termination_by v => (sizeOf v, 0)
decreasing_by
  · exact Prod.Lex.left _ _ (by simp)
  · exact Prod.Lex.left _ _ (by simp)
  · exact Prod.Lex.left _ _ (by simp)
  · exact Prod.Lex.left _ _ (by simp)
  · exact Prod.Lex.left _ _ (by simp)

/-- `enumValuesJson` on every member. -/
def enumValuesJsonList : List PyVal → Bool
  | [] => true
  | v :: rest => enumValuesJson v && enumValuesJsonList rest
termination_by l => (sizeOf l, 0)
decreasing_by
  · exact Prod.Lex.left _ _ (by simp only [List.cons.sizeOf_spec]; omega)
  · exact Prod.Lex.left _ _ (by simp only [List.cons.sizeOf_spec]; omega)

/-- `enumValuesJson` on every entry value. -/
def enumValuesJsonKVs : List (PyKey × PyVal) → Bool
  | [] => true
  | (_, v) :: rest => enumValuesJson v && enumValuesJsonKVs rest
termination_by l => (sizeOf l, 0)
decreasing_by
  · exact Prod.Lex.left _ _ (by simp only [List.cons.sizeOf_spec, Prod.mk.sizeOf_spec]; omega)
  · exact Prod.Lex.left _ _ (by simp only [List.cons.sizeOf_spec]; omega)

end

/-- All keys of a mapping are strings. -/
def allStrKeys (kvs : List (PyKey × PyVal)) : Bool :=
  kvs.all (fun kv => match kv.1 with
    | PyKey.strK _ => true
    | _ => false)

/-- No key occurs twice (the invariant of every real Python dict). -/
def nodupKeys : List (PyKey × PyVal) → Bool
  | [] => true
  | (k, _) :: rest => !(rest.any (fun kv => kv.1 = k)) && nodupKeys rest

mutual

/-- The round-trippable values: the domain on which
`deserialize_value ∘ serialize_value` is proved to be the identity.
Primitives and the sentinels round-trip unconditionally; lists
member-wise; mappings need string keys, no duplicate and no reserved
tag key; bytes must hold byte values; ranges need a nonzero step; a
type reference needs a module name `import_module` accepts (nonempty,
not a relative dot-leading name) that the import environment resolves
with `module.name` back to that same type. -/
def rtOK (env : ImportEnv) : PyVal → Bool
  | .none => true
  | .bool _ => true
  | .int _ => true
  | .float _ => true
  | .str _ => true
  | .suppress => true
  | .list es => rtOKList env es
  | .dict kvs => nodupKeys kvs && allStrKeys kvs && !hasReservedTag kvs && rtOKKVs env kvs
  | .bytes bs => bs.all (fun b => b < 256)
  | .rng _ _ c => c ≠ 0
  | .typ nm modu =>
    !(dotLeading modu) && !(modu = "") && env.hasModule modu &&
      (match env.getattr modu nm with
       | some (PyVal.typ nm2 modu2) => nm2 = nm && modu2 = modu
       | _ => false)
  | _ => false
termination_by v => (sizeOf v, 0)
decreasing_by
  · exact Prod.Lex.left _ _ (by simp)
  · exact Prod.Lex.left _ _ (by simp)

/-- `rtOK` on every member. -/
def rtOKList (env : ImportEnv) : List PyVal → Bool
  | [] => true
  | v :: rest => rtOK env v && rtOKList env rest
termination_by l => (sizeOf l, 0)
decreasing_by
  · exact Prod.Lex.left _ _ (by simp only [List.cons.sizeOf_spec]; omega)
  · exact Prod.Lex.left _ _ (by simp only [List.cons.sizeOf_spec]; omega)

/-- `rtOK` on every entry value. -/
def rtOKKVs (env : ImportEnv) : List (PyKey × PyVal) → Bool
  | [] => true
  | (_, v) :: rest => rtOK env v && rtOKKVs env rest
termination_by l => (sizeOf l, 0)
decreasing_by
  · exact Prod.Lex.left _ _ (by simp only [List.cons.sizeOf_spec, Prod.mk.sizeOf_spec]; omega)
  · exact Prod.Lex.left _ _ (by simp only [List.cons.sizeOf_spec]; omega)

end

/-- Primitive values (deserialize to themselves, always hashable). -/
def isPrim : PyVal → Bool
  | .none => true
  | .bool _ => true
  | .int _ => true
  | .float _ => true
  | .str _ => true
  | .suppress => true
  | _ => false

/-- A set/frozenset payload that is a list of primitives. -/
def primListPayload : PyVal → Bool
  | .list es => es.all isPrim
  | _ => false

/-- An optional entry that is absent or holds a string. -/
def okStrOpt : Option PyVal → Bool
  | Option.none => true
  | some v => (asStr? v).isSome

/-- A module value on which `importlib.import_module` raises no
exception outside the surrounding `except` clause: non-string
non-bytes values stay caught (`AttributeError`), a bytes value and a
relative (dot-leading) name raise `TypeError`, and the empty name
raises `ValueError` — caught only where the clause lists `ValueError`
(`emptyOk`). -/
def modValSafe (emptyOk : Bool) (mv : PyVal) : Bool :=
  match asStr? mv with
  | some ms => !(dotLeading ms) && (emptyOk || !(ms = ""))
  | Option.none => !(isBytes mv)

/-- `modValSafe` on an optional `"module"` entry (an absent entry is a
caught `KeyError`). -/
def modNameSafe (emptyOk : Bool) : Option PyVal → Bool
  | Option.none => true
  | some mv => modValSafe emptyOk mv

mutual

/-- Well-formed tag payloads: a sufficient data-side condition under
which `deserialize_value` is total (no raise), given a benign import
environment. -/
def wfTags : PyVal → Bool
  | .list es => wfTagsList es
  | .dict kvs => wfTagsDict kvs
  | _ => true
termination_by v => (sizeOf v, 0)
decreasing_by
  · exact Prod.Lex.left _ _ (by simp)
  · exact Prod.Lex.left _ _ (by simp)

/-- `wfTags` on every member. -/
def wfTagsList : List PyVal → Bool
  | [] => true
  | v :: rest => wfTags v && wfTagsList rest
termination_by l => (sizeOf l, 0)
decreasing_by
  · exact Prod.Lex.left _ _ (by simp only [List.cons.sizeOf_spec]; omega)
  · exact Prod.Lex.left _ _ (by simp only [List.cons.sizeOf_spec]; omega)

/-- Well-formedness of a mapping's tag payload, following the dispatch
order of `_deserialize_dict`. -/
def wfTagsDict (kvs : List (PyKey × PyVal)) : Bool :=
  if hasKey kvs "__argparse__" then true
  else if hasKey kvs "__set__" then primListPayload (getKeyD kvs "__set__")
  else if hasKey kvs "__frozenset__" then primListPayload (getKeyD kvs "__frozenset__")
  else if hasKey kvs "__bytes__" then (asStr? (getKeyD kvs "__bytes__")).isSome
  else if hasKey kvs "__bytes_b64__" then
    (match asStr? (getKeyD kvs "__bytes_b64__") with
     | some s => (b64Decode? s).isSome
     | Option.none => false)
  else if hasKey kvs "__range__" then (deserializeRange (getKeyD kvs "__range__")).isSome
  else if hasKey kvs "__enum__" then
    okStrOpt (getKey? kvs "class") && modNameSafe true (getKey? kvs "module")
  else if hasKey kvs "__type__" then
    okStrOpt (getKey? kvs "name") && modNameSafe false (getKey? kvs "module")
  else if hasKey kvs "__repr__" then true
  else if hasKey kvs "__circular_ref__" then true
  else wfTagsKVs kvs
termination_by (sizeOf kvs, 1)
decreasing_by
  exact Prod.Lex.right _ (by omega)

/-- `wfTags` on every entry value. -/
def wfTagsKVs : List (PyKey × PyVal) → Bool
  | [] => true
  | (_, v) :: rest => wfTags v && wfTagsKVs rest
termination_by l => (sizeOf l, 0)
decreasing_by
  · exact Prod.Lex.left _ _ (by simp only [List.cons.sizeOf_spec, Prod.mk.sizeOf_spec]; omega)
  · exact Prod.Lex.left _ _ (by simp only [List.cons.sizeOf_spec]; omega)

end

/-- A benign import environment: constructing an enum member never
raises an exception outside the caught classes. -/
def benignEnv (env : ImportEnv) : Prop :=
  ∀ m c v, env.callCls m c v ≠ EnumCall.uncaught

/-- The empty import environment: no module resolves. -/
def env0 : ImportEnv :=
  ⟨fun _ => false, fun _ _ => Option.none, fun _ _ _ => EnumCall.caught⟩

/-- An import environment that resolves exactly `builtins.int` back to
the built-in `int` type. -/
def envB : ImportEnv :=
  ⟨fun m => m = "builtins",
   fun m n => if m = "builtins" then
       (if n = "int" then some (.typ "int" "builtins") else Option.none)
     else Option.none,
   fun _ _ _ => EnumCall.caught⟩

/-! ## Claim theorems -/

/-- C3: for every TypeReference with `serializable = false`,
`resolve_type` raises `UnresolvableTypeError` (naming the reference) in
strict mode and returns absent in lenient mode, regardless of the
name, origin and builtin fields and of the import environment. -/
theorem c3_nonserializable_always_fails (imp : String → String → Option Bool)
    (bns : String → Option Bool) (ti : TypeInfo) (fti : Option FileTypeInfo)
    (h : ti.serializable = false) :
    resolve_type imp bns (some ti) fti true =
      Except.error ("Type \x27" ++ ti.name ++ "\x27 was marked as non-serializable") ∧
    resolve_type imp bns (some ti) fti false = Except.ok Option.none := by
  constructor <;> simp [resolve_type, h]

/-- Witness for C3 at the concrete reference
`TypeInfo(name="FileType", module="argparse", builtin=True,
serializable=False)` — a reference whose other fields would otherwise
resolve. -/
theorem c3_nonserializable_always_fails_witness :
    (TypeInfo.mk "FileType" (some "argparse") true false).serializable = false ∧
    (resolve_type (fun _ _ => Option.none) (fun _ => Option.none)
        (some (TypeInfo.mk "FileType" (some "argparse") true false)) Option.none true =
      Except.error ("Type \x27FileType\x27 was marked as non-serializable") ∧
    resolve_type (fun _ _ => Option.none) (fun _ => Option.none)
        (some (TypeInfo.mk "FileType" (some "argparse") true false)) Option.none false =
      Except.ok Option.none) :=
  ⟨rfl, c3_nonserializable_always_fails _ _ _ _ rfl⟩

/-- C4 counterexample: a FileType reference marked `serializable=False`
does not succeed — strict mode raises, because the non-serializable
check precedes the file-type strategy in `resolve_type`. -/
theorem c4_counterexample :
    resolve_type (fun _ _ => Option.none) (fun _ => Option.none)
      (some (TypeInfo.mk "FileType" (some "argparse") false false)) Option.none true =
    Except.error ("Type \x27FileType\x27 was marked as non-serializable") := by
  rfl

/-- C4 amended: for every TypeReference naming the file-opening
converter (name `"FileType"`, origin `"argparse"`) with
`serializable = true`, `resolve_type` constructs the converter directly
from the given FileConverterParams (or defaults if absent) and succeeds
in both modes, regardless of the builtin flag and the import
environment. -/
theorem c4_filetype_direct (imp : String → String → Option Bool)
    (bns : String → Option Bool) (fti : Option FileTypeInfo) (strict b : Bool) :
    resolve_type imp bns (some (TypeInfo.mk "FileType" (some "argparse") b true)) fti strict =
      Except.ok (some (match fti with
        | some f => Conv.fileType f.mode f.bufsize f.encoding f.errors
        | Option.none => Conv.fileType "r" (-1) Option.none Option.none)) := by
  cases fti <;> simp [resolve_type, resolveFileType]

/-- `lookupNames` after `addName`: the appended name lands on its
parser's entry and nothing else changes. -/
theorem lookupNames_addName (acc : List (Nat × List String)) (p : Nat) (n : String)
    (q : Nat) :
    lookupNames (addName acc p n) q =
      if p = q then lookupNames acc q ++ [n] else lookupNames acc q := by
  induction acc with
  | nil =>
    by_cases hpq : p = q
    · subst hpq
      simp [addName, lookupNames]
    · simp [addName, lookupNames, hpq]
  | cons e rest ih =>
    obtain ⟨p1, ns⟩ := e
    by_cases hp1 : p1 = p
    · subst hp1
      by_cases hq : p1 = q
      · subst hq
        simp [addName, lookupNames]
      · simp [addName, lookupNames, hq]
    · rw [addName, if_neg hp1]
      by_cases hq : p1 = q
      · subst hq
        have hpq : ¬ p = p1 := fun hh => hp1 hh.symm
        simp [lookupNames, hpq]
      · simp [lookupNames, hq, ih]

/-- `parser_to_names` collects, for each parser identity, exactly the
names bound to it, in enumeration order. -/
theorem lookupNames_parserToNames_aux (pm : List (String × Nat)) :
    ∀ (acc : List (Nat × List String)) (q : Nat),
      lookupNames (pm.foldl (fun acc nv => addName acc nv.2 nv.1) acc) q =
        lookupNames acc q ++ (pm.filter (fun x => x.2 = q)).map Prod.fst := by
  induction pm with
  | nil => intro acc q; simp
  | cons e rest ih =>
    obtain ⟨n, p⟩ := e
    intro acc q
    rw [List.foldl_cons, ih]
    by_cases hpq : p = q
    · subst hpq
      rw [lookupNames_addName, if_pos rfl]
      simp [List.filter_cons]
    · rw [lookupNames_addName, if_neg hpq]
      simp [List.filter_cons, hpq]

/-- `lookupNames (parserToNames pm) q` is the list of names bound to
`q` in `pm`. -/
theorem lookupNames_parserToNames (pm : List (String × Nat)) (q : Nat) :
    lookupNames (parserToNames pm) q = (pm.filter (fun x => x.2 = q)).map Prod.fst := by
  rw [parserToNames, lookupNames_parserToNames_aux]
  rfl

/-- The loop of `_add_subparsers_info` computes the first-name-per-
parser entries and their alias lists. -/
theorem addSubLoop_eq {P : Type} (sp : Nat → P) (p2n : List (Nat × List String)) :
    ∀ (pm : List (String × Nat)) (ser : List Nat),
      addSubLoop sp p2n pm ser =
        ((firstByAddr pm ser).map (fun nv => (nv.1, sp nv.2)),
         (firstByAddr pm ser).filterMap (fun nv =>
           if ((lookupNames p2n nv.2).filter (fun n => n ≠ nv.1)).isEmpty then Option.none
           else some (nv.1, (lookupNames p2n nv.2).filter (fun n => n ≠ nv.1)))) := by
  intro pm
  induction pm with
  | nil => intro ser; rfl
  | cons e rest ih =>
    obtain ⟨name, pid⟩ := e
    intro ser
    rw [addSubLoop, firstByAddr]
    by_cases hmem : pid ∈ ser
    · rw [if_pos hmem, if_pos hmem, ih]
    · rw [if_neg hmem, if_neg hmem, ih]
      simp only [List.map_cons, List.filterMap_cons]
      by_cases hae : ((lookupNames p2n pid).filter (fun n => n ≠ name)).isEmpty = true
      · rw [if_pos hae, if_pos hae]
      · rw [if_neg hae, if_neg hae]

/-- No canonical entry carries an identity already serialized. -/
theorem firstByAddr_count_mem (pm : List (String × Nat)) :
    ∀ (ser : List Nat) (pid : Nat), pid ∈ ser →
      ((firstByAddr pm ser).filter (fun nv => nv.2 = pid)).length = 0 := by
  induction pm with
  | nil => intro ser pid _; rfl
  | cons e rest ih =>
    obtain ⟨name, p⟩ := e
    intro ser pid hser
    rw [firstByAddr]
    by_cases hp : p ∈ ser
    · rw [if_pos hp]
      exact ih ser pid hser
    · rw [if_neg hp]
      have hne : ¬ p = pid := fun hh => hp (hh ▸ hser)
      rw [List.filter_cons]
      simp only [hne, decide_False, Bool.false_eq_true, if_false]
      exact ih (p :: ser) pid (by simp [hser])

/-- Each parser identity occurring in the map and not yet serialized
has exactly one canonical entry. -/
theorem firstByAddr_count_one (pm : List (String × Nat)) :
    ∀ (ser : List Nat) (pid : Nat), pid ∈ pm.map Prod.snd → pid ∉ ser →
      ((firstByAddr pm ser).filter (fun nv => nv.2 = pid)).length = 1 := by
  induction pm with
  | nil => intro ser pid hmem; cases hmem
  | cons e rest ih =>
    obtain ⟨name, p⟩ := e
    intro ser pid hmem hser
    rw [firstByAddr]
    by_cases hp : p ∈ ser
    · rw [if_pos hp]
      have hne : p ≠ pid := fun hh => hser (hh ▸ hp)
      have hmem2 : pid ∈ rest.map Prod.snd := by
        simp only [List.map_cons, List.mem_cons] at hmem
        rcases hmem with hh | hh
        · exact absurd hh.symm hne
        · exact hh
      exact ih ser pid hmem2 hser
    · rw [if_neg hp]
      by_cases hppid : p = pid
      · subst hppid
        rw [List.filter_cons]
        simp only [decide_True, if_true]
        rw [List.length_cons, firstByAddr_count_mem rest (p :: ser) p (by simp)]
      · rw [List.filter_cons]
        simp only [hppid, decide_False, Bool.false_eq_true, if_false]
        have hmem2 : pid ∈ rest.map Prod.snd := by
          simp only [List.map_cons, List.mem_cons] at hmem
          rcases hmem with hh | hh
          · exact absurd hh.symm hppid
          · exact hh
        exact ih (p :: ser) pid hmem2 (by
          simp only [List.mem_cons, not_or]
          exact ⟨fun hh => hppid hh.symm, hser⟩)

/-- Serializing a list preserves its length. -/
theorem serializeList_length (σ : Heap) (seen : Finset Nat) (l : List PyVal) :
    (serializeList σ seen l).length = l.length := by
  induction l with
  | nil => rw [serializeList]
  | cons v rest ih =>
    rw [serializeList, List.length_cons, List.length_cons, ih]

/-- Serializing a list acts member-wise on positions. -/
theorem serializeList_get? (σ : Heap) (seen : Finset Nat) (l : List PyVal) :
    ∀ i : Nat, (serializeList σ seen l).get? i = (l.get? i).map (serializeVal σ seen) := by
  induction l with
  | nil => intro i; rw [serializeList]; cases i <;> rfl
  | cons v rest ih =>
    intro i
    cases i with
    | zero => rw [serializeList]; rfl
    | succ i1 => rw [serializeList, List.get?_cons_succ, List.get?_cons_succ, ih]

/-- C7: when several command names of one subparsers action map to the
identical nested parser object, the encoding emits exactly one full
nested node per parser object, keyed by the first such name in
enumeration order, and records every remaining name of that object as
an alias of the canonical name; object identity (the `pid` component),
not name equality, decides "already serialized". -/
theorem c7_alias_canonicalization {P : Type} (sp : Nat → P) (pm : List (String × Nat)) :
    (add_subparsers_info sp pm).1 =
        (canonicalEntries pm).map (fun nv => (nv.1, sp nv.2)) ∧
    (add_subparsers_info sp pm).2 = aliasSpec pm ∧
    (∀ pid, pid ∈ pm.map Prod.snd →
        ((canonicalEntries pm).filter (fun nv => nv.2 = pid)).length = 1) := by
  have h := addSubLoop_eq sp (parserToNames pm) pm []
  refine ⟨?_, ?_, ?_⟩
  · rw [add_subparsers_info, h, canonicalEntries]
  · rw [add_subparsers_info, h]
    dsimp only
    rw [aliasSpec, canonicalEntries]
    congr 1
    funext nv
    rw [lookupNames_parserToNames]
  · intro pid hmem
    exact firstByAddr_count_one pm [] pid hmem (by simp)

/-- Witness for C7 on the alias scenario of the test-suite
(`checkout` with aliases `co`, `ch`; `commit` with alias `ci`): the
identity 7 occurs in the map and receives exactly one canonical
entry. -/
theorem c7_alias_canonicalization_witness :
    (7 : Nat) ∈ ([("checkout", 7), ("co", 7), ("ch", 7), ("commit", 9), ("ci", 9)]
        : List (String × Nat)).map Prod.snd ∧
    ((canonicalEntries [("checkout", 7), ("co", 7), ("ch", 7), ("commit", 9), ("ci", 9)]).filter
        (fun nv => nv.2 = 7)).length = 1 :=
  ⟨by simp,
   (c7_alias_canonicalization (fun a => a)
      [("checkout", 7), ("co", 7), ("ch", 7), ("commit", 9), ("ci", 9)]).2.2 7 (by simp)⟩

/-- C5: encoding a self-referential sequence terminates (the threaded
serializer succeeds with fuel one more than the heap size, for every
value over the heap), the self-referential slot is encoded as the
circular marker, any reference to an object on the current encoding
chain short-circuits to the marker, and decoding the marker yields
`None`, never an infinite structure. -/
theorem c5_self_referential (σ : Heap) (a : Nat) (es : List PyVal) (i : Nat)
    (hget : heapGet? σ a = some (.list es)) (hi : es.get? i = some (.ref a)) :
    (∀ v : PyVal, (serializeValSt σ ((heapDom σ).card + 1) v ∅).isSome) ∧
    (∃ rs : List PyVal, serialize_value σ (.ref a) = .list rs ∧ rs.length = es.length ∧
        rs.get? i = some circularTag) ∧
    (∀ (seen : Finset Nat) (b : Nat), b ∈ seen →
        serializeVal σ seen (.ref b) = circularTag) ∧
    (∀ env : ImportEnv, deserialize_value env circularTag = some PyVal.none) := by
  refine ⟨?_, ?_, ?_, ?_⟩
  · intro v
    rw [serializeValSt_spec (by rw [Finset.sdiff_empty])]
    rfl
  · refine ⟨serializeList σ (insert a ∅) es, ?_, ?_, ?_⟩
    · rw [serialize_value, serializeVal_ref_some (by simp) hget, serializeVal]
    · exact serializeList_length σ (insert a ∅) es
    · rw [serializeList_get? σ (insert a ∅) es i, hi, Option.map_some',
        serializeVal_ref_mem (by simp)]
  · intro seen b hb
    exact serializeVal_ref_mem hb
  · intro env
    simp [deserialize_value, deserializeDict, circularTag, hasKey, sk]

/-- Witness for C5 at the heap of the test-suite example
`lst = [1, 2]; lst.append(lst)`: address 0 holds the list
`[1, 2, ref 0]`, whose slot 2 refers back to itself. -/
theorem c5_self_referential_witness :
    heapGet? [(0, PyVal.list [.int 1, .int 2, .ref 0])] 0 =
      some (.list [.int 1, .int 2, .ref 0]) ∧
    ([PyVal.int 1, PyVal.int 2, PyVal.ref 0].get? 2 = some (PyVal.ref 0) ∧
      ∀ env : ImportEnv, deserialize_value env circularTag = some PyVal.none) :=
  ⟨rfl, rfl,
   (c5_self_referential [(0, PyVal.list [.int 1, .int 2, .ref 0])] 0
      [.int 1, .int 2, .ref 0] 2 rfl rfl).2.2.2⟩

/-- C8: the threaded `_seen` protocol (push before the children, pop
immediately after) returns the set unchanged and agrees with the pure
serializer; hence two sibling references to the same non-ancestor
object both serialize independently in full (both slots carry the full
serialization of the referent), while a reference to any object on the
ancestor chain is replaced by the circular marker without descending. -/
theorem c8_push_pop_discipline (σ : Heap) :
    (∀ (fuel : Nat) (v : PyVal) (seen : Finset Nat),
        (heapDom σ \ seen).card + 1 ≤ fuel →
        serializeValSt σ fuel v seen = some (serializeVal σ seen v, seen)) ∧
    (∀ (seen : Finset Nat) (es : List PyVal) (i j b : Nat) (w : PyVal),
        es.get? i = some (.ref b) → es.get? j = some (.ref b) → b ∉ seen →
        heapGet? σ b = some w →
        (serializeList σ seen es).get? i = some (serializeVal σ (insert b seen) w) ∧
        (serializeList σ seen es).get? j = some (serializeVal σ (insert b seen) w)) ∧
    (∀ (seen : Finset Nat) (a : Nat), a ∈ seen →
        serializeVal σ seen (.ref a) = circularTag) := by
  refine ⟨(serializeSt_spec σ).1, ?_, ?_⟩
  · intro seen es i j b w hi hj hb hget
    constructor
    · rw [serializeList_get? σ seen es i, hi, Option.map_some',
        serializeVal_ref_some hb hget]
    · rw [serializeList_get? σ seen es j, hj, Option.map_some',
        serializeVal_ref_some hb hget]
  · intro seen a ha
    exact serializeVal_ref_mem ha

/-- Witness for C8 on the heap holding one shared list: the container
`[ref 0, ref 0]` has two sibling references to address 0 (storing
`[int 5]`), and both slots encode to the full `[5]` array. -/
theorem c8_push_pop_discipline_witness :
    (([PyVal.ref 0, PyVal.ref 0] : List PyVal).get? 0 = some (PyVal.ref 0) ∧
      ([PyVal.ref 0, PyVal.ref 0] : List PyVal).get? 1 = some (PyVal.ref 0) ∧
      (0 : Nat) ∉ (∅ : Finset Nat) ∧
      heapGet? [(0, PyVal.list [.int 5])] 0 = some (.list [.int 5])) ∧
    ((serializeList [(0, PyVal.list [.int 5])] ∅ [PyVal.ref 0, PyVal.ref 0]).get? 0 =
        some (serializeVal [(0, PyVal.list [.int 5])] (insert 0 ∅) (.list [.int 5])) ∧
      (serializeList [(0, PyVal.list [.int 5])] ∅ [PyVal.ref 0, PyVal.ref 0]).get? 1 =
        some (serializeVal [(0, PyVal.list [.int 5])] (insert 0 ∅) (.list [.int 5]))) :=
  ⟨⟨rfl, rfl, by simp, rfl⟩,
   (c8_push_pop_discipline [(0, PyVal.list [.int 5])]).2.1 ∅ [PyVal.ref 0, PyVal.ref 0]
      0 1 0 (.list [.int 5]) rfl rfl (by simp) rfl⟩

/-- Totality of the sort key order. -/
instance : IsTotal PyVal (fun a b => pyStr a ≤ pyStr b) :=
  ⟨fun a b => le_total (pyStr a) (pyStr b)⟩

/-- Transitivity of the sort key order. -/
instance : IsTrans PyVal (fun a b => pyStr a ≤ pyStr b) :=
  ⟨fun _ _ _ hab hbc => le_trans hab hbc⟩

/-- Vacuous antisymmetry of the strict sort key order. -/
instance : IsAntisymm PyVal (fun a b => pyStr a < pyStr b) :=
  ⟨fun _ _ hab hba => absurd hba (lt_asymm hab)⟩

/-- When no two elements share a string representation, any two
permutations of the elements sort to the same list. -/
theorem sortByStr_perm_eq {l1 l2 : List PyVal} (hperm : l1.Perm l2)
    (hinj : l1.Pairwise (fun a b => pyStr a ≠ pyStr b)) :
    sortByStr l1 = sortByStr l2 := by
  have hsym : Symmetric (fun a b : PyVal => pyStr a ≠ pyStr b) :=
    fun a b h h2 => h h2.symm
  have hp : (sortByStr l1).Perm (sortByStr l2) :=
    (List.perm_insertionSort _ l1).trans (hperm.trans (List.perm_insertionSort _ l2).symm)
  have hne1 : (sortByStr l1).Pairwise (fun a b => pyStr a ≠ pyStr b) :=
    ((List.perm_insertionSort _ l1).pairwise_iff (fun hh => hsym hh)).mpr hinj
  have hne2 : (sortByStr l2).Pairwise (fun a b => pyStr a ≠ pyStr b) :=
    ((List.perm_insertionSort _ l2).pairwise_iff (fun hh => hsym hh)).mpr ((hperm.pairwise_iff (fun hh => hsym hh)).mp hinj)
  have hs1 : (sortByStr l1).Pairwise (fun a b => pyStr a < pyStr b) :=
    ((List.sorted_insertionSort _ l1).and hne1).imp (fun h => lt_of_le_of_ne h.1 h.2)
  have hs2 : (sortByStr l2).Pairwise (fun a b => pyStr a < pyStr b) :=
    ((List.sorted_insertionSort _ l2).and hne2).imp (fun h => lt_of_le_of_ne h.1 h.2)
  exact List.eq_of_perm_of_sorted hp hs1 hs2

/-- C9 counterexample: the set `\x7b1, "1"\x7d` (two distinct elements whose
`str` forms coincide) encoded from its two possible iteration orders
gives two different outputs — the stable sort keeps the tied elements
in iteration order. -/
theorem c9_counterexample :
    ([PyVal.str "1", PyVal.int 1] : List PyVal).Perm [PyVal.int 1, PyVal.str "1"] ∧
    serialize_value [] (.set [.int 1, .str "1"]) ≠
      serialize_value [] (.set [.str "1", .int 1]) := by
  constructor
  · exact List.Perm.swap _ _ _
  · simp +decide [serialize_value, serializeVal, serializeList, sortByStr,
      List.insertionSort, List.orderedInsert, pyStr, pyRepr, sk]

/-- C9 amended: when no two elements of the set share a string
representation, the encoder's output is independent of the
collection's iteration order (for sets and frozensets alike), because
the elements are listed sorted by their string form before encoding. -/
theorem c9_sorted_determinism (σ : Heap) (es1 es2 : List PyVal)
    (hperm : es1.Perm es2)
    (hinj : es1.Pairwise (fun a b => pyStr a ≠ pyStr b)) :
    serialize_value σ (.set es1) = serialize_value σ (.set es2) ∧
    serialize_value σ (.fset es1) = serialize_value σ (.fset es2) := by
  have hs := sortByStr_perm_eq hperm hinj
  constructor
  · rw [serialize_value, serialize_value, serializeVal, serializeVal, hs]
  · rw [serialize_value, serialize_value, serializeVal, serializeVal, hs]

/-- Witness for C9 at the set `\x7b1, 2\x7d` in both iteration orders. -/
theorem c9_sorted_determinism_witness :
    ([PyVal.int 1, PyVal.int 2] : List PyVal).Perm [PyVal.int 2, PyVal.int 1] ∧
    ([PyVal.int 1, PyVal.int 2] : List PyVal).Pairwise (fun a b => pyStr a ≠ pyStr b) ∧
    serialize_value [] (.set [.int 1, .int 2]) = serialize_value [] (.set [.int 2, .int 1]) :=
  ⟨List.Perm.swap _ _ _,
   by simp +decide [List.pairwise_cons, pyStr, pyRepr],
   (c9_sorted_determinism [] [.int 1, .int 2] [.int 2, .int 1]
      (List.Perm.swap _ _ _)
      (by simp +decide [List.pairwise_cons, pyStr, pyRepr])).1⟩

/-- C10 counterexample: a mapping containing `"__circular_ref__"` does
not decode to `None` when an earlier-checked reserved tag is also
present — `\x7b"__circular_ref__": True, "__set__": []\x7d` decodes to the
empty set. -/
theorem c10_counterexample :
    deserialize_value env0
        (.dict [(sk "__circular_ref__", .bool true), (sk "__set__", .list [])]) =
      some (.set []) ∧ PyVal.set [] ≠ PyVal.none := by
  constructor
  · simp +decide [deserialize_value, deserializeDict, deserializeElems, deserializeList,
      hasKey, getKeyD, getKey?, sk, isHashableList, dedupFirst, dedupFirst.go]
  · simp

/-- C10 amended: `_deserialize_dict` dispatches on the mere presence of
a reserved tag key, never on its value, trying the tags in a fixed
order.  A mapping containing `"__circular_ref__"` and none of the nine
earlier tags decodes to `None` regardless of that key's value and of
any other entries; a mapping containing `"__set__"` and no
`"__argparse__"` is handed to the set branch by key presence alone,
regardless of either key's value. -/
theorem c10_presence_dispatch (env : ImportEnv) (kvs : List (PyKey × PyVal)) :
    (hasKey kvs "__circular_ref__" = true →
     hasKey kvs "__argparse__" = false → hasKey kvs "__set__" = false →
     hasKey kvs "__frozenset__" = false → hasKey kvs "__bytes__" = false →
     hasKey kvs "__bytes_b64__" = false → hasKey kvs "__range__" = false →
     hasKey kvs "__enum__" = false → hasKey kvs "__type__" = false →
     hasKey kvs "__repr__" = false →
     deserialize_value env (.dict kvs) = some PyVal.none) ∧
    (hasKey kvs "__set__" = true → hasKey kvs "__argparse__" = false →
     deserialize_value env (.dict kvs) =
       (deserializeElems env (getKeyD kvs "__set__")).bind (fun rs =>
         if isHashableList rs then some (.set (dedupFirst rs)) else Option.none)) := by
  constructor
  · intro hc h1 h2 h3 h4 h5 h6 h7 h8 h9
    rw [deserialize_value, deserializeDict]
    rw [if_neg (by simp [h1]), dif_neg (by simp [h2]), dif_neg (by simp [h3]),
      if_neg (by simp [h4]), if_neg (by simp [h5]), if_neg (by simp [h6]),
      if_neg (by simp [h7]), if_neg (by simp [h8]), if_neg (by simp [h9]),
      if_pos hc]
  · intro hs h1
    rw [deserialize_value, deserializeDict]
    rw [if_neg (by simp [h1]), dif_pos hs]

/-- Witness for C10 at a mapping whose circular key holds a non-boolean
value next to an ordinary entry. -/
theorem c10_presence_dispatch_witness :
    hasKey [(sk "__circular_ref__", PyVal.int 0), (sk "x", PyVal.str "y")]
        "__circular_ref__" = true ∧
    deserialize_value env0
        (.dict [(sk "__circular_ref__", PyVal.int 0), (sk "x", PyVal.str "y")]) =
      some PyVal.none :=
  ⟨rfl,
   (c10_presence_dispatch env0 [(sk "__circular_ref__", PyVal.int 0), (sk "x", PyVal.str "y")]).1
     rfl rfl rfl rfl rfl rfl rfl rfl rfl rfl⟩

/-- `enumValuesJsonList` is the member-wise condition. -/
theorem enumValuesJsonList_iff (l : List PyVal) :
    enumValuesJsonList l = true ↔ ∀ v ∈ l, enumValuesJson v = true := by
  induction l with
  | nil => simp [enumValuesJsonList]
  | cons v rest ih => simp [enumValuesJsonList, ih]

/-- `jsonCompatibleList` is the member-wise condition. -/
theorem jsonCompatibleList_iff (l : List PyVal) :
    jsonCompatibleList l = true ↔ ∀ v ∈ l, jsonCompatible v = true := by
  induction l with
  | nil => simp [jsonCompatibleList]
  | cons v rest ih => simp [jsonCompatibleList, ih]

/-- `jsonCompatibleKVs` is the entry-value-wise condition. -/
theorem jsonCompatibleKVs_iff (l : List (PyKey × PyVal)) :
    jsonCompatibleKVs l = true ↔ ∀ kv ∈ l, jsonCompatible kv.2 = true := by
  induction l with
  | nil => simp [jsonCompatibleKVs]
  | cons kv rest ih =>
    obtain ⟨k, v⟩ := kv
    simp [jsonCompatibleKVs, ih]

/-- Every value stored in the dict-comprehension result was a value of
the original entry list. -/
theorem pyDictOf_snd_mem : ∀ (l : List (PyKey × PyVal)) (kv : PyKey × PyVal),
    kv ∈ pyDictOf l → kv.2 ∈ l.map Prod.snd := by
  intro l
  induction l using pyDictOf.induct with
  | case1 =>
    intro kv h
    rw [pyDictOf] at h
    cases h
  | case2 k v rest ih =>
    intro kv h
    rw [pyDictOf] at h
    rcases List.mem_cons.mp h with heq | hmem
    · subst heq
      have hin := List.getLastD_mem_cons ((rest.filter (fun kv => kv.1 = k)).map Prod.snd) v
      rcases List.mem_cons.mp hin with h0 | h1
      · rw [h0]
        simp
      · simp only [List.mem_map] at h1
        obtain ⟨kv1, hkv1, hval⟩ := h1
        have : kv1 ∈ rest := List.mem_of_mem_filter hkv1
        simp only [List.map_cons, List.mem_cons]
        right
        exact List.mem_map.mpr ⟨kv1, this, hval⟩
    · have h2 := ih kv hmem
      simp only [List.mem_map] at h2
      obtain ⟨kv1, hkv1, hval⟩ := h2
      have : kv1 ∈ rest := List.mem_of_mem_filter hkv1
      simp only [List.map_cons, List.mem_cons]
      right
      exact List.mem_map.mpr ⟨kv1, this, hval⟩

/-- Over a heap whose stored values carry only JSON-compatible enum
underlying values, the serializer maps every input whose enum members
carry JSON-compatible underlying values to a JSON-compatible tree. -/
theorem serialize_json_all (σ : Heap)
    (hσ : ∀ (a : Nat) (w : PyVal), heapGet? σ a = some w → enumValuesJson w = true) :
    (∀ (seen : Finset Nat) (v : PyVal), enumValuesJson v = true →
        jsonCompatible (serializeVal σ seen v) = true) ∧
    (∀ (seen : Finset Nat) (kvs : List (PyKey × PyVal)), enumValuesJsonKVs kvs = true →
        jsonCompatibleKVs (serializeKVs σ seen kvs) = true) ∧
    (∀ (seen : Finset Nat) (l : List PyVal), enumValuesJsonList l = true →
        jsonCompatibleList (serializeList σ seen l) = true) := by
  apply serializeVal.mutual_induct σ
    (fun seen v => enumValuesJson v = true → jsonCompatible (serializeVal σ seen v) = true)
    (fun seen kvs => enumValuesJsonKVs kvs = true →
      jsonCompatibleKVs (serializeKVs σ seen kvs) = true)
    (fun seen l => enumValuesJsonList l = true →
      jsonCompatibleList (serializeList σ seen l) = true)
  · intro seen _
    simp [serializeVal, jsonCompatible]
  · intro seen _
    simp [serializeVal, argTag, jsonCompatible, jsonCompatibleKVs, sk]
  · intro seen b _
    simp [serializeVal, jsonCompatible]
  · intro seen i _
    simp [serializeVal, jsonCompatible]
  · intro seen f _
    simp [serializeVal, jsonCompatible]
  · intro seen _
    simp [serializeVal, argTag, jsonCompatible, jsonCompatibleKVs, sk]
  · intro seen s hne _
    simp [serializeVal, jsonCompatible, hne]
  · intro seen a ha _
    rw [serializeVal_ref_mem ha]
    simp [circularTag, jsonCompatible, jsonCompatibleKVs, sk]
  · intro seen a hmem w hget ih _
    rw [serializeVal_ref_some hmem hget]
    exact ih (hσ a w hget)
  · intro seen a hmem hget _
    rw [serializeVal_ref_unbound hmem hget]
    simp [jsonCompatible]
  · intro seen es ih h
    simp only [enumValuesJson] at h
    rw [serializeVal]
    simp only [jsonCompatible]
    exact ih h
  · intro seen es ih h
    simp only [enumValuesJson] at h
    rw [serializeVal]
    simp only [jsonCompatible]
    exact ih h
  · intro seen kvs ih h
    simp only [enumValuesJson] at h
    rw [serializeVal]
    simp only [jsonCompatible]
    rw [jsonCompatibleKVs_iff]
    intro kv hkv
    have hmem := pyDictOf_snd_mem _ kv hkv
    simp only [List.mem_map] at hmem
    obtain ⟨kv1, hkv1, hval⟩ := hmem
    rw [← hval]
    exact (jsonCompatibleKVs_iff _).mp (ih h) kv1 hkv1
  · intro seen es ih h
    simp only [enumValuesJson] at h
    have h2 : enumValuesJsonList (sortByStr es) = true := by
      rw [enumValuesJsonList_iff]
      intro v hv
      exact (enumValuesJsonList_iff es).mp h v ((List.perm_insertionSort _ es).subset hv)
    have h3 := ih h2
    rw [serializeVal]
    simp [jsonCompatible, jsonCompatibleKVs, h3]
  · intro seen es ih h
    simp only [enumValuesJson] at h
    have h2 : enumValuesJsonList (sortByStr es) = true := by
      rw [enumValuesJsonList_iff]
      intro v hv
      exact (enumValuesJsonList_iff es).mp h v ((List.perm_insertionSort _ es).subset hv)
    have h3 := ih h2
    rw [serializeVal]
    simp [jsonCompatible, jsonCompatibleKVs, h3]
  · intro seen cls modu val nm h
    simp only [enumValuesJson] at h
    rw [serializeVal]
    simp [jsonCompatible, jsonCompatibleKVs, h]
  · intro seen bs s hdec _
    rw [serializeVal]
    simp [hdec, jsonCompatible, jsonCompatibleKVs]
  · intro seen bs hdec _
    rw [serializeVal]
    simp [hdec, jsonCompatible, jsonCompatibleKVs]
  · intro seen a b c _
    rw [serializeVal]
    simp [jsonCompatible, jsonCompatibleKVs, jsonCompatibleList]
  · intro seen nm modu _
    rw [serializeVal]
    simp [jsonCompatible, jsonCompatibleKVs]
  · intro seen r t _
    rw [serializeVal]
    simp [jsonCompatible, jsonCompatibleKVs]
  · intro seen _
    simp [serializeKVs, jsonCompatibleKVs]
  · intro seen k v rest ih1 ih2 h
    simp only [enumValuesJsonKVs, Bool.and_eq_true] at h
    rw [serializeKVs]
    simp only [jsonCompatibleKVs, Bool.and_eq_true]
    exact ⟨ih1 h.1, ih2 h.2⟩
  · intro seen _
    simp [serializeList, jsonCompatibleList]
  · intro seen v rest ih1 ih2 h
    simp only [enumValuesJsonList, Bool.and_eq_true] at h
    rw [serializeList]
    simp only [jsonCompatibleList, Bool.and_eq_true]
    exact ⟨ih1 h.1, ih2 h.2⟩

/-- C6 counterexample: serializing an enum member whose underlying
value is the byte string `b"\x5cx00"` embeds the bytes object raw, so the
produced tree is not JSON-compatible. -/
theorem c6_counterexample :
    jsonCompatible (serialize_value [] (.enum "E" "m" (.bytes [0]) "A")) = false := by
  simp +decide [serialize_value, serializeVal, jsonCompatible, jsonCompatibleKVs, sk]

/-- C6 amended: for every input value all of whose enum members carry
JSON-compatible underlying values (over a heap with the same
property), the tree produced by `serialize_value` consists only of
JSON-compatible nodes — objects, arrays, strings, numbers, booleans
and nulls. -/
theorem c6_json_compatible (σ : Heap) (v : PyVal)
    (hσ : ∀ (a : Nat) (w : PyVal), heapGet? σ a = some w → enumValuesJson w = true)
    (hv : enumValuesJson v = true) :
    jsonCompatible (serialize_value σ v) = true :=
  (serialize_json_all σ hσ).1 ∅ v hv

/-- Witness for C6 at a nested value mixing every JSON-safe shape. -/
theorem c6_json_compatible_witness :
    (∀ (a : Nat) (w : PyVal), heapGet? [] a = some w → enumValuesJson w = true) ∧
    enumValuesJson (PyVal.list [.int 1, .bytes [255], .enum "E" "m" (.str "red") "R",
        .dict [(sk "k", .rng 0 5 1)]]) = true ∧
    jsonCompatible (serialize_value [] (PyVal.list [.int 1, .bytes [255],
        .enum "E" "m" (.str "red") "R", .dict [(sk "k", .rng 0 5 1)]])) = true :=
  ⟨fun a w h => (by cases h),
   by simp +decide [enumValuesJson, enumValuesJsonList, enumValuesJsonKVs, jsonCompatible],
   c6_json_compatible [] (PyVal.list [.int 1, .bytes [255],
       .enum "E" "m" (.str "red") "R", .dict [(sk "k", .rng 0 5 1)]])
     (fun a w h => (by cases h))
     (by simp +decide [enumValuesJson, enumValuesJsonList, enumValuesJsonKVs, jsonCompatible])⟩

/-! ## C2: totality of the decoder -/

/-- A primitive deserializes to itself (the final `return value`). -/
theorem deserialize_prim (env : ImportEnv) {v : PyVal} (h : isPrim v = true) :
    deserialize_value env v = some v := by
  cases v <;> simp_all [isPrim, deserialize_value]

/-- Primitives are hashable. -/
theorem isHashable_of_isPrim {v : PyVal} (h : isPrim v = true) : isHashable v = true := by
  cases v <;> simp_all [isPrim, isHashable]

/-- A list of primitives deserializes member-wise to itself. -/
theorem deserializeList_prim (env : ImportEnv) {es : List PyVal}
    (h : es.all isPrim = true) : deserializeList env es = some es := by
  induction es with
  | nil => rw [deserializeList]
  | cons v rest ih =>
    rw [List.all_cons, Bool.and_eq_true] at h
    rw [deserializeList, deserialize_prim env h.1, ih h.2]
    rfl

/-- A list of primitives is member-wise hashable. -/
theorem isHashableList_of_prim {es : List PyVal} (h : es.all isPrim = true) :
    isHashableList es = true := by
  induction es with
  | nil => rw [isHashableList]
  | cons v rest ih =>
    rw [List.all_cons, Bool.and_eq_true] at h
    rw [isHashableList, isHashable_of_isPrim h.1, ih h.2]
    rfl

/-- A set/frozenset payload that is a list of primitives yields its
elements, all hashable. -/
theorem deserializeElems_primPayload (env : ImportEnv) {p : PyVal}
    (h : primListPayload p = true) :
    ∃ rs, deserializeElems env p = some rs ∧ isHashableList rs = true := by
  cases p
  case list es =>
    rw [primListPayload] at h
    exact ⟨es, by rw [deserializeElems]; exact deserializeList_prim env h,
      isHashableList_of_prim h⟩
  all_goals simp [primListPayload] at h

/-- Over a benign import environment, `_deserialize_enum` never raises
when the stored class name, if any, is a string and the stored module
entry cannot raise an uncaught `TypeError` out of `import_module`. -/
theorem deserializeEnum_isSome {env : ImportEnv} (kvs : List (PyKey × PyVal))
    (hb : benignEnv env) (h : okStrOpt (getKey? kvs "class") = true)
    (hms : modNameSafe true (getKey? kvs "module") = true) :
    (deserializeEnum env kvs).isSome = true := by
  cases hm : getKey? kvs "module" with
  | none => simp [deserializeEnum, hm]
  | some mv =>
    rw [hm, modNameSafe] at hms
    cases hs : asStr? mv with
    | none =>
      rw [modValSafe, hs] at hms
      simp only [Bool.not_eq_true'] at hms
      cases mv <;> simp_all [deserializeEnum, asStr?, isBytes]
    | some ms =>
      rw [modValSafe, hs] at hms
      have hdot : dotLeading ms = false := by simp_all
      by_cases hemp : ms = ""
      · simp +decide [deserializeEnum, hm, hs, hemp]
      · by_cases hmod : env.hasModule ms = true
        · cases hc : getKey? kvs "class" with
          | none => simp [deserializeEnum, hm, hs, hdot, hemp, hmod, hc]
          | some cv =>
            rw [hc, okStrOpt] at h
            obtain ⟨cs, hcs⟩ := Option.isSome_iff_exists.mp h
            cases hg : env.getattr ms cs with
            | none => simp [deserializeEnum, hm, hs, hdot, hemp, hmod, hc, hcs, hg]
            | some g =>
              cases hv : getKey? kvs "value" with
              | none => simp [deserializeEnum, hm, hs, hdot, hemp, hmod, hc, hcs, hg, hv]
              | some arg =>
                cases hcall : env.callCls ms cs arg with
                | ok w =>
                  simp [deserializeEnum, hm, hs, hdot, hemp, hmod, hc, hcs, hg, hv, hcall]
                | caught =>
                  simp [deserializeEnum, hm, hs, hdot, hemp, hmod, hc, hcs, hg, hv, hcall]
                | uncaught => exact absurd hcall (hb ms cs arg)
        · simp [deserializeEnum, hm, hs, hdot, hemp, hmod]

/-- `_deserialize_type` never raises when the stored type name, if any,
is a string and the stored module entry cannot raise an uncaught
`TypeError`/`ValueError` out of `import_module`. -/
theorem deserializeType_isSome (env : ImportEnv) (kvs : List (PyKey × PyVal))
    (h : okStrOpt (getKey? kvs "name") = true)
    (hms : modNameSafe false (getKey? kvs "module") = true) :
    (deserializeType env kvs).isSome = true := by
  cases hm : getKey? kvs "module" with
  | none => simp [deserializeType, hm]
  | some mv =>
    rw [hm, modNameSafe] at hms
    cases hs : asStr? mv with
    | none =>
      rw [modValSafe, hs] at hms
      simp only [Bool.not_eq_true'] at hms
      cases mv <;> simp_all [deserializeType, asStr?, isBytes]
    | some ms =>
      rw [modValSafe, hs] at hms
      have hdot : dotLeading ms = false := by simp_all
      have hemp : ¬(ms = "") := by
        intro hcontra
        rw [hcontra] at hms
        simp at hms
      by_cases hmod : env.hasModule ms = true
      · cases hn : getKey? kvs "name" with
        | none => simp [deserializeType, hm, hs, hdot, hemp, hmod, hn]
        | some nv =>
          rw [hn, okStrOpt] at h
          obtain ⟨ns, hns⟩ := Option.isSome_iff_exists.mp h
          cases hg : env.getattr ms ns with
          | none => simp [deserializeType, hm, hs, hdot, hemp, hmod, hn, hns, hg]
          | some g => simp [deserializeType, hm, hs, hdot, hemp, hmod, hn, hns, hg]
      · simp [deserializeType, hm, hs, hdot, hemp, hmod]

/-- Totality of the whole decoder group on well-formed tag payloads
over a benign import environment. -/
theorem deserialize_total_all (env : ImportEnv) (hb : benignEnv env) :
    (∀ v, wfTags v = true → (deserialize_value env v).isSome = true) ∧
    (∀ kvs, wfTagsDict kvs = true → (deserializeDict env kvs).isSome = true) ∧
    (∀ kvs, wfTagsKVs kvs = true → (deserializeKVs env kvs).isSome = true) ∧
    (∀ payload : PyVal, True) ∧
    (∀ l, wfTagsList l = true → (deserializeList env l).isSome = true) := by
  apply deserialize_value.mutual_induct env
    (fun v => wfTags v = true → (deserialize_value env v).isSome = true)
    (fun kvs => wfTagsDict kvs = true → (deserializeDict env kvs).isSome = true)
    (fun kvs => wfTagsKVs kvs = true → (deserializeKVs env kvs).isSome = true)
    (fun _ => True)
    (fun l => wfTagsList l = true → (deserializeList env l).isSome = true)
  · intro es ih h
    rw [wfTags] at h
    obtain ⟨rs, hrs⟩ := Option.isSome_iff_exists.mp (ih h)
    rw [deserialize_value, hrs]
    rfl
  · intro kvs ih h
    rw [wfTags] at h
    rw [deserialize_value]
    exact ih h
  · intro v
    cases v
    case list es => intro h1 h2 _; exact absurd rfl (h1 es)
    case dict kvs => intro h1 h2 _; exact absurd rfl (h2 kvs)
    all_goals (intro _ _ _; simp [deserialize_value])
  · intro kvs h1 _
    rw [deserializeDict, if_pos h1]
    rfl
  · intro kvs h1 h2 _ hwf
    rw [wfTagsDict, if_neg h1, if_pos h2] at hwf
    obtain ⟨rs, hrs, hh⟩ := deserializeElems_primPayload env hwf
    rw [deserializeDict, if_neg h1, dif_pos h2, hrs]
    simp only [Option.some_bind]
    rw [if_pos hh]
    rfl
  · intro kvs h1 h2 h3 _ hwf
    rw [wfTagsDict, if_neg h1, if_neg h2, if_pos h3] at hwf
    obtain ⟨rs, hrs, hh⟩ := deserializeElems_primPayload env hwf
    rw [deserializeDict, if_neg h1, dif_neg h2, dif_pos h3, hrs]
    simp only [Option.some_bind]
    rw [if_pos hh]
    rfl
  · intro kvs h1 h2 h3 h4 s hs _
    rw [deserializeDict, if_neg h1, dif_neg h2, dif_neg h3, if_pos h4, hs]
    rfl
  · intro kvs h1 h2 h3 h4 hs hwf
    rw [wfTagsDict, if_neg h1, if_neg h2, if_neg h3, if_pos h4, hs] at hwf
    simp at hwf
  · intro kvs h1 h2 h3 h4 h5 s hs hwf
    rw [wfTagsDict, if_neg h1, if_neg h2, if_neg h3, if_neg h4, if_pos h5, hs] at hwf
    obtain ⟨bs, hbs⟩ := Option.isSome_iff_exists.mp hwf
    rw [deserializeDict, if_neg h1, dif_neg h2, dif_neg h3, if_neg h4, if_pos h5, hs]
    show (Option.map PyVal.bytes (b64Decode? s)).isSome = true
    rw [hbs]
    rfl
  · intro kvs h1 h2 h3 h4 h5 hs hwf
    rw [wfTagsDict, if_neg h1, if_neg h2, if_neg h3, if_neg h4, if_pos h5, hs] at hwf
    simp at hwf
  · intro kvs h1 h2 h3 h4 h5 h6 hwf
    rw [wfTagsDict, if_neg h1, if_neg h2, if_neg h3, if_neg h4, if_neg h5, if_pos h6] at hwf
    rw [deserializeDict, if_neg h1, dif_neg h2, dif_neg h3, if_neg h4, if_neg h5, if_pos h6]
    exact hwf
  · intro kvs h1 h2 h3 h4 h5 h6 h7 hwf
    rw [wfTagsDict, if_neg h1, if_neg h2, if_neg h3, if_neg h4, if_neg h5, if_neg h6,
      if_pos h7] at hwf
    rw [deserializeDict, if_neg h1, dif_neg h2, dif_neg h3, if_neg h4, if_neg h5, if_neg h6,
      if_pos h7]
    rw [Bool.and_eq_true] at hwf
    exact deserializeEnum_isSome kvs hb hwf.1 hwf.2
  · intro kvs h1 h2 h3 h4 h5 h6 h7 h8 hwf
    rw [wfTagsDict, if_neg h1, if_neg h2, if_neg h3, if_neg h4, if_neg h5, if_neg h6,
      if_neg h7, if_pos h8] at hwf
    rw [deserializeDict, if_neg h1, dif_neg h2, dif_neg h3, if_neg h4, if_neg h5, if_neg h6,
      if_neg h7, if_pos h8]
    rw [Bool.and_eq_true] at hwf
    exact deserializeType_isSome env kvs hwf.1 hwf.2
  · intro kvs h1 h2 h3 h4 h5 h6 h7 h8 h9 hser _
    rw [deserializeDict, if_neg h1, dif_neg h2, dif_neg h3, if_neg h4, if_neg h5, if_neg h6,
      if_neg h7, if_neg h8, if_pos h9]
    split <;> rfl
  · intro kvs h1 h2 h3 h4 h5 h6 h7 h8 h9 hser _
    rw [deserializeDict, if_neg h1, dif_neg h2, dif_neg h3, if_neg h4, if_neg h5, if_neg h6,
      if_neg h7, if_neg h8, if_pos h9]
    split <;> rfl
  · intro kvs h1 h2 h3 h4 h5 h6 h7 h8 h9 h10 _
    rw [deserializeDict, if_neg h1, dif_neg h2, dif_neg h3, if_neg h4, if_neg h5, if_neg h6,
      if_neg h7, if_neg h8, if_neg h9, if_pos h10]
    rfl
  · intro kvs h1 h2 h3 h4 h5 h6 h7 h8 h9 h10 ih hwf
    rw [wfTagsDict, if_neg h1, if_neg h2, if_neg h3, if_neg h4, if_neg h5, if_neg h6,
      if_neg h7, if_neg h8, if_neg h9, if_neg h10] at hwf
    obtain ⟨rs, hrs⟩ := Option.isSome_iff_exists.mp (ih hwf)
    rw [deserializeDict, if_neg h1, dif_neg h2, dif_neg h3, if_neg h4, if_neg h5, if_neg h6,
      if_neg h7, if_neg h8, if_neg h9, if_neg h10, hrs]
    rfl
  · intro _
    rw [deserializeKVs]
    rfl
  · intro k v rest r heq ih1 ih2 hwf
    rw [wfTagsKVs, Bool.and_eq_true] at hwf
    obtain ⟨rs, hrs⟩ := Option.isSome_iff_exists.mp (ih2 hwf.2)
    rw [deserializeKVs, heq, hrs]
    rfl
  · intro k v rest heq ih1 hwf
    rw [wfTagsKVs, Bool.and_eq_true] at hwf
    have := ih1 hwf.1
    rw [heq] at this
    simp at this
  · intro es _
    trivial
  · intro es _
    trivial
  · intro es _
    trivial
  · intro es _
    trivial
  · intro v _ _ _ _
    trivial
  · intro _
    rw [deserializeList]
    rfl
  · intro v rest r heq ih1 ih2 hwf
    rw [wfTagsList, Bool.and_eq_true] at hwf
    obtain ⟨rs, hrs⟩ := Option.isSome_iff_exists.mp (ih2 hwf.2)
    rw [deserializeList, heq, hrs]
    rfl
  · intro v rest heq ih1 hwf
    rw [wfTagsList, Bool.and_eq_true] at hwf
    have := ih1 hwf.1
    rw [heq] at this
    simp at this

/-- C2 counterexample: `deserialize_value` is not total — the mapping
`\x7b"__range__": [1, 2, 0]\x7d` reaches `range(1, 2, 0)`, whose zero step
raises `ValueError`, and `_deserialize_dict` does not catch it (the
model returns `none` for a raise). -/
theorem c2_counterexample :
    deserialize_value env0 (.dict [(sk "__range__", .list [.int 1, .int 2, .int 0])]) =
      Option.none := by
  simp +decide [deserialize_value, deserializeDict, deserializeRange, hasKey, getKeyD,
    getKey?, sk, toIndex?, List.mapM, List.mapM.loop]

/-- C2 (amended): over a benign import environment (enum construction
raises only caught exception classes), decoding never raises on inputs
whose tag payloads are well-formed — in particular, a mapping carrying
no reserved tag key always passes through as a plain mapping with its
values decoded individually; but decoding is not total over every
input tree: a malformed `__range__`, `__bytes__`, `__bytes_b64__`,
`__set__` or `__frozenset__` payload propagates an exception. -/
theorem c2_decode_totality (env : ImportEnv) (hb : benignEnv env) :
    (∀ v, wfTags v = true → (deserialize_value env v).isSome = true) ∧
    (∀ kvs, reservedTags.all (fun t => !hasKey kvs t) = true →
      deserialize_value env (.dict kvs) =
        (deserializeKVs env kvs).map (fun rs => .dict (pyDictOf rs))) := by
  refine ⟨(deserialize_total_all env hb).1, ?_⟩
  intro kvs hnone
  simp only [reservedTags, List.all_cons, List.all_nil, Bool.and_eq_true,
    Bool.not_eq_true', and_true] at hnone
  obtain ⟨h1, h2, h3, h4, h5, h6, h7, h8, h9, h10⟩ := hnone
  rw [deserialize_value, deserializeDict, if_neg (ne_true_of_eq_false h1),
    dif_neg (ne_true_of_eq_false h2), dif_neg (ne_true_of_eq_false h3),
    if_neg (ne_true_of_eq_false h4), if_neg (ne_true_of_eq_false h5),
    if_neg (ne_true_of_eq_false h6), if_neg (ne_true_of_eq_false h7),
    if_neg (ne_true_of_eq_false h8), if_neg (ne_true_of_eq_false h9),
    if_neg (ne_true_of_eq_false h10)]

/-- Witness for C2 over the empty import environment: a well-formed
set tag decodes without raising, and a mapping with no reserved tag
passes through value-wise. -/
theorem c2_decode_totality_witness :
    benignEnv env0 ∧
    (deserialize_value env0 (.dict [(sk "__set__", .list [.int 1, .int 2])])).isSome = true ∧
    deserialize_value env0 (.dict [(sk "k", .int 3)]) =
      (deserializeKVs env0 [(sk "k", .int 3)]).map (fun rs => .dict (pyDictOf rs)) :=
  ⟨fun m c v h => EnumCall.noConfusion h,
   (c2_decode_totality env0 (fun m c v h => EnumCall.noConfusion h)).1 _
     (by simp +decide [wfTags, wfTagsDict, primListPayload, hasKey, getKeyD, getKey?,
       sk, isPrim]),
   (c2_decode_totality env0 (fun m c v h => EnumCall.noConfusion h)).2 _
     (by simp +decide [reservedTags, hasKey, sk])⟩

/-! ## C1: the round trip -/

/-- Key membership only looks at the key column. -/
theorem anyKeyFst (l : List (PyKey × PyVal)) (k : PyKey) :
    l.any (fun kv => kv.1 = k) = (l.map Prod.fst).any (fun k1 => k1 = k) := by
  induction l with
  | nil => rfl
  | cons kv rest ih => simp only [List.any_cons, List.map_cons, ih]

/-- `hasKey` agrees on entry lists with the same key column. -/
theorem hasKey_of_keys_eq {l1 l2 : List (PyKey × PyVal)}
    (h : l1.map Prod.fst = l2.map Prod.fst) (s : String) : hasKey l1 s = hasKey l2 s := by
  rw [hasKey, hasKey, anyKeyFst, anyKeyFst, h]

/-- `nodupKeys` agrees on entry lists with the same key column. -/
theorem nodupKeys_of_keys_eq : ∀ {l1 l2 : List (PyKey × PyVal)},
    l1.map Prod.fst = l2.map Prod.fst → nodupKeys l1 = nodupKeys l2 := by
  intro l1
  induction l1 with
  | nil =>
    intro l2 h
    cases l2 with
    | nil => rfl
    | cons kv2 r2 => simp at h
  | cons kv r ih =>
    intro l2 h
    cases l2 with
    | nil => simp at h
    | cons kv2 r2 =>
      obtain ⟨k, v⟩ := kv
      obtain ⟨k2, v2⟩ := kv2
      simp only [List.map_cons, List.cons.injEq] at h
      rw [nodupKeys, nodupKeys, anyKeyFst, anyKeyFst, h.1, h.2, ih h.2]

/-- On a duplicate-free entry list the dict comprehension is the
identity. -/
theorem pyDictOf_nodup : ∀ {l : List (PyKey × PyVal)}, nodupKeys l = true →
    pyDictOf l = l := by
  intro l
  induction l using pyDictOf.induct with
  | case1 =>
    intro _
    rw [pyDictOf]
  | case2 k v rest ih =>
    intro h
    rw [nodupKeys, Bool.and_eq_true, Bool.not_eq_true'] at h
    have hkey : ∀ kv ∈ rest, ¬(kv.1 = k) := by
      intro kv hkv
      have := List.any_eq_false.mp h.1 kv hkv
      simpa using this
    have hnone : rest.filter (fun kv => kv.1 = k) = [] := by
      rw [List.filter_eq_nil_iff]
      intro kv hkv
      simpa using hkey kv hkv
    have hself : rest.filter (fun kv => kv.1 ≠ k) = rest := by
      rw [List.filter_eq_self]
      intro kv hkv
      simpa using hkey kv hkv
    rw [hself] at ih
    rw [pyDictOf, hnone, hself, ih h.2]
    simp

/-- With string keys, serializing a dictionary's entries keeps the key
column unchanged (`str` on a string is the identity). -/
theorem serializeKVs_keys (σ : Heap) (seen : Finset Nat) :
    ∀ {kvs : List (PyKey × PyVal)}, allStrKeys kvs = true →
      (serializeKVs σ seen kvs).map Prod.fst = kvs.map Prod.fst := by
  intro kvs
  induction kvs with
  | nil =>
    intro _
    rw [serializeKVs]
  | cons kv rest ih =>
    obtain ⟨k, v⟩ := kv
    intro h
    rw [allStrKeys, List.all_cons, Bool.and_eq_true] at h
    have hk : sk (PyKey.str k) = k := by
      cases k
      case strK s => rfl
      all_goals simp at h
    rw [serializeKVs, List.map_cons, List.map_cons, hk,
      ih (by rw [allStrKeys]; exact h.2)]

/-- The encoder and the decoder are mutually inverse on the
round-trippable values, entry lists and member lists, whatever the
`_seen` state. -/
theorem roundtrip_all (env : ImportEnv) (σ : Heap) :
    (∀ (seen : Finset Nat) (v : PyVal), rtOK env v = true →
        deserialize_value env (serializeVal σ seen v) = some v) ∧
    (∀ (seen : Finset Nat) (kvs : List (PyKey × PyVal)), allStrKeys kvs = true →
        rtOKKVs env kvs = true →
        deserializeKVs env (serializeKVs σ seen kvs) = some kvs) ∧
    (∀ (seen : Finset Nat) (l : List PyVal), rtOKList env l = true →
        deserializeList env (serializeList σ seen l) = some l) := by
  apply serializeVal.mutual_induct σ
    (fun seen v => rtOK env v = true →
      deserialize_value env (serializeVal σ seen v) = some v)
    (fun seen kvs => allStrKeys kvs = true → rtOKKVs env kvs = true →
      deserializeKVs env (serializeKVs σ seen kvs) = some kvs)
    (fun seen l => rtOKList env l = true →
      deserializeList env (serializeList σ seen l) = some l)
  · intro seen _
    simp [serializeVal, deserialize_value]
  · intro seen _
    rw [serializeVal]
    simp +decide [argTag, deserialize_value, deserializeDict, deserializeArgMarker, hasKey,
      getKeyD, getKey?, sk]
  · intro seen b _
    simp [serializeVal, deserialize_value]
  · intro seen i _
    simp [serializeVal, deserialize_value]
  · intro seen f _
    simp [serializeVal, deserialize_value]
  · intro seen _
    simp +decide [serializeVal, argTag, deserialize_value, deserializeDict,
      deserializeArgMarker, hasKey, getKeyD, getKey?, sk]
  · intro seen s hne _
    simp [serializeVal, hne, deserialize_value]
  · intro seen a ha h
    simp [rtOK] at h
  · intro seen a hmem w hget ih h
    simp [rtOK] at h
  · intro seen a hmem hget h
    simp [rtOK] at h
  · intro seen es ih h
    rw [rtOK] at h
    rw [serializeVal, deserialize_value, ih h]
    rfl
  · intro seen es ih h
    simp [rtOK] at h
  · intro seen kvs ih h
    rw [rtOK] at h
    simp only [Bool.and_eq_true, Bool.not_eq_true'] at h
    have hnd : nodupKeys kvs = true := by simp_all
    have hstr : allStrKeys kvs = true := by simp_all
    have hnores : hasReservedTag kvs = false := by simp_all
    have hrt : rtOKKVs env kvs = true := by simp_all
    have hkeys := serializeKVs_keys σ seen hstr
    have hnd2 : nodupKeys (serializeKVs σ seen kvs) = true := by
      rw [nodupKeys_of_keys_eq hkeys]
      exact hnd
    rw [hasReservedTag, List.any_eq_false] at hnores
    have htag : ∀ t ∈ reservedTags, ¬(hasKey (serializeKVs σ seen kvs) t = true) := by
      intro t ht
      rw [hasKey_of_keys_eq hkeys]
      exact hnores t ht
    rw [serializeVal, deserialize_value, pyDictOf_nodup hnd2, deserializeDict,
      if_neg (htag "__argparse__" (by simp [reservedTags])),
      dif_neg (htag "__set__" (by simp [reservedTags])),
      dif_neg (htag "__frozenset__" (by simp [reservedTags])),
      if_neg (htag "__bytes__" (by simp [reservedTags])),
      if_neg (htag "__bytes_b64__" (by simp [reservedTags])),
      if_neg (htag "__range__" (by simp [reservedTags])),
      if_neg (htag "__enum__" (by simp [reservedTags])),
      if_neg (htag "__type__" (by simp [reservedTags])),
      if_neg (htag "__repr__" (by simp [reservedTags])),
      if_neg (htag "__circular_ref__" (by simp [reservedTags])),
      ih hstr hrt]
    simp [pyDictOf_nodup hnd]
  · intro seen es ih h
    simp [rtOK] at h
  · intro seen es ih h
    simp [rtOK] at h
  · intro seen cls modu val nm h
    simp [rtOK] at h
  · intro seen bs s hdec h
    rw [serializeVal, hdec]
    simp +decide [deserialize_value, deserializeDict, hasKey, getKey?, getKeyD, asStr?, sk,
      utf8Decode_encode hdec]
  · intro seen bs hdec h
    rw [rtOK] at h
    have hb2 : ∀ b ∈ bs, b < 256 := by simpa using h
    rw [serializeVal, hdec]
    simp +decide [deserialize_value, deserializeDict, hasKey, getKey?, getKeyD, asStr?, sk,
      b64Decode_encode hb2]
  · intro seen a b c h
    rw [rtOK] at h
    simp only [decide_eq_true_eq] at h
    rw [serializeVal]
    simp +decide [deserialize_value, deserializeDict, deserializeRange, hasKey, getKey?,
      getKeyD, sk, toIndex?, List.mapM, List.mapM.loop, h]
  · intro seen nm modu h
    rw [rtOK] at h
    simp only [Bool.and_eq_true, Bool.not_eq_true', decide_eq_false_iff_not] at h
    have hdot : dotLeading modu = false := by simp_all
    have hemp : ¬(modu = "") := by simp_all
    have h1 : env.hasModule modu = true := by simp_all
    have h2 : (match env.getattr modu nm with
        | some (PyVal.typ nm2 modu2) => decide (nm2 = nm) && decide (modu2 = modu)
        | _ => false) = true := by
      simp_all
    cases hg : env.getattr modu nm with
    | none =>
      rw [hg] at h2
      simp at h2
    | some w =>
      rw [hg] at h2
      cases w
      case typ nm2 modu2 =>
        simp only [Bool.and_eq_true, decide_eq_true_eq] at h2
        obtain ⟨hnm, hmod⟩ := h2
        subst hnm
        subst hmod
        rw [serializeVal]
        simp +decide [deserialize_value, deserializeDict, deserializeType, hasKey, getKey?,
          getKeyD, asStr?, sk, h1, hg, hdot, hemp]
      all_goals simp at h2
  · intro seen r t h
    simp [rtOK] at h
  · intro seen _ _
    rw [serializeKVs, deserializeKVs]
  · intro seen k v rest ih1 ih2 hstr hrt
    rw [allStrKeys, List.all_cons, Bool.and_eq_true] at hstr
    rw [rtOKKVs, Bool.and_eq_true] at hrt
    have hk : sk (PyKey.str k) = k := by
      cases k
      case strK s => rfl
      all_goals simp at hstr
    rw [serializeKVs, deserializeKVs, ih1 hrt.1,
      ih2 (by rw [allStrKeys]; exact hstr.2) hrt.2, hk]
    rfl
  · intro seen _
    rw [serializeList, deserializeList]
  · intro seen v rest ih1 ih2 h
    rw [rtOKList, Bool.and_eq_true] at h
    rw [serializeList, deserializeList, ih1 h.1, ih2 h.2]
    rfl

/-- C1 counterexample: a tuple does not round-trip — `(1,)` encodes as
a JSON array (`_serialize_sequence` handles list and tuple alike) and
decodes to the list `[1]`, and in Python `(1,) == [1]` is `False`. -/
theorem c1_counterexample :
    deserialize_value env0 (serialize_value [] (.tupl [.int 1])) = some (.list [.int 1]) ∧
    PyVal.list [.int 1] ≠ PyVal.tupl [.int 1] := by
  constructor
  · simp +decide [serialize_value, serializeVal, serializeList, deserialize_value,
      deserializeList]
  · exact fun hcontra => PyVal.noConfusion hcontra

/-- C1 (amended): `deserialize_value (serialize_value v) == v` for the
primitives (None, bool, int, float, str including the two argparse
sentinels), member-wise round-trippable lists, string-keyed
duplicate-free mappings carrying no reserved tag key, byte strings,
nonzero-step ranges, and type references the import environment
resolves back to themselves — but not for tuples, which decode as
lists. -/
theorem c1_roundtrip (env : ImportEnv) (σ : Heap) (v : PyVal) (h : rtOK env v = true) :
    deserialize_value env (serialize_value σ v) = some v := by
  rw [serialize_value]
  exact (roundtrip_all env σ).1 ∅ v h

/-- Witness for C1: a mapping holding every round-trippable shape —
primitives, both sentinels, UTF-8 and non-UTF-8 bytes, a range and a
resolvable type reference. -/
theorem c1_roundtrip_witness :
    rtOK envB (PyVal.dict [(sk "k", .list [.none, .bool true, .int 5, .float 2, .str "hi",
        .str "...", .suppress, .bytes [0, 104], .bytes [255], .rng 0 5 2,
        .typ "int" "builtins"])]) = true ∧
    deserialize_value envB (serialize_value [] (PyVal.dict [(sk "k",
        .list [.none, .bool true, .int 5, .float 2, .str "hi",
          .str "...", .suppress, .bytes [0, 104], .bytes [255], .rng 0 5 2,
          .typ "int" "builtins"])])) =
      some (PyVal.dict [(sk "k", .list [.none, .bool true, .int 5, .float 2, .str "hi",
        .str "...", .suppress, .bytes [0, 104], .bytes [255], .rng 0 5 2,
        .typ "int" "builtins"])]) :=
  ⟨by simp +decide [rtOK, rtOKList, rtOKKVs, nodupKeys, allStrKeys, hasReservedTag,
      reservedTags, hasKey, sk, envB],
   c1_roundtrip envB [] _
     (by simp +decide [rtOK, rtOKList, rtOKKVs, nodupKeys, allStrKeys, hasReservedTag,
       reservedTags, hasKey, sk, envB])⟩

end Argdump